import Mathlib

/-!
Verification development for the cluster-coordination slice of ArangoDB:
the distribution plan nodes (`RemoteNode`, `ScatterNode`, `DistributeNode`,
`GatherNode` from `arangod/Aql/ClusterNodes.cpp`) and the transaction lease
registry (`arangod/Transaction/TransactionRegistry.h`).

Modelling conventions:
- C++ `double` values (costs, ttl, timestamps) are modelled by `Rat`;
  `size_t` by `Nat`.
- A `velocypack` slice is modelled by the inductive `VPack`; `Slice::get`
  on a missing attribute yields `none`.
- An operation whose C++ counterpart can perform an out-of-bounds access or
  throw is modelled with `Option`/`Except`, `none` marking the bad path.
-/

/-! ## Cost estimates (`estimateCost` in `ClusterNodes.cpp`) -/

/-- An upstream dependency's estimate as produced by
`double ExecutionNode::estimateCost(size_t& nrItems)`: the returned relative
cost together with the row count written through `nrItems`. -/
structure CostEstimate where
  cost : Rat
  nrItems : Nat
deriving DecidableEq

/-- `RemoteNode::estimateCost`: when `_dependencies.size() == 1`, the estimate
is `depCost + nrItems` with the dependency's row count; otherwise the
conservative fallback `nrItems = 1`, `cost = 1.0` ("do something bordering on
sensible"). The argument lists the dependencies' estimates. -/
def remoteEstimateCost (deps : List CostEstimate) : CostEstimate :=
  match deps with
  | [d] => { cost := d.cost + d.nrItems, nrItems := d.nrItems }
  | _ => { cost := 1, nrItems := 1 }

/-- `ScatterNode::estimateCost`: reads `_dependencies[0]` unconditionally and
returns `depCost + nrItems * _clients.size()`. `none` models the out-of-bounds
access `_dependencies[0]` performs when the node has no dependency at all;
extra dependencies beyond the first are ignored. -/
def scatterEstimateCost (deps : List CostEstimate) (nrClients : Nat) :
    Option CostEstimate :=
  match deps with
  | [] => none
  | d :: _ => some { cost := d.cost + d.nrItems * nrClients, nrItems := d.nrItems }

/-- `DistributeNode::estimateCost`: reads `_dependencies[0]` unconditionally
and returns `depCost + nrItems`, independent of the client count. -/
def distributeEstimateCost (deps : List CostEstimate) : Option CostEstimate :=
  match deps with
  | [] => none
  | d :: _ => some { cost := d.cost + d.nrItems, nrItems := d.nrItems }

/-- `GatherNode::estimateCost`: reads `_dependencies[0]` unconditionally and
returns `depCost + nrItems`. -/
def gatherEstimateCost (deps : List CostEstimate) : Option CostEstimate :=
  match deps with
  | [] => none
  | d :: _ => some { cost := d.cost + d.nrItems, nrItems := d.nrItems }

/-! ## VelocyPack embedding -/

/-- A velocypack value: the subset of slice shapes the cluster nodes read and
write (null, booleans, integers, strings, arrays, objects). -/
inductive VPack where
  | vnull
  | vbool (b : Bool)
  | vnum (n : Int)
  | vstr (s : String)
  | varr (items : List VPack)
  | vobj (fields : List (String × VPack))

/-- First field of an object field list matching `key` (`Slice::get`). -/
def vpackGetField (fields : List (String × VPack)) (key : String) : Option VPack :=
  match fields with
  | [] => none
  | (k, v) :: rest => if k = key then some v else vpackGetField rest key

/-- `Slice::get(key)`: the attribute's value, `none` when the slice is not an
object or the attribute is absent. -/
def VPack.get : VPack → String → Option VPack
  | .vobj fields, key => vpackGetField fields key
  | _, _ => none

/-- `Slice::hasKey`. -/
def VPack.hasKey (v : VPack) (key : String) : Bool :=
  (v.get key).isSome

/-- `VelocyPackHelper::getStringRef(slice, default)`: the string value, or the
default when the slice is absent or not a string. -/
def getStringRef : Option VPack → String → String
  | some (.vstr s), _ => s
  | some _, d => d
  | none, d => d

/-! ## Gather sort mode (`toSortMode` / `toString` in `ClusterNodes.cpp`) -/

/-- `GatherNode::SortMode`. -/
inductive SortMode where
  | MinElement
  | Heap
deriving DecidableEq

/-- The anonymous-namespace `toSortMode`: looks the tag up in the map
`{"minelement" ↦ MinElement, "heap" ↦ Heap}`; any other tag (including
`"unset"`) misses the map and the function reports failure without writing
the mode, modelled as `none`. -/
def toSortMode (s : String) : Option SortMode :=
  if s = "minelement" then some .MinElement
  else if s = "heap" then some .Heap
  else none

/-- The anonymous-namespace `toString` over `GatherNode::SortMode`. -/
def sortModeToString : SortMode → String
  | .MinElement => "minelement"
  | .Heap => "heap"

/-! ## Node models and their velocypack (de)serialization

The `ExecutionNode` base-class payload (id, dependency ids, register plan)
is produced by `toVelocyPackHelperGeneric`, outside this slice; the models
below carry and serialize the node-specific fields the claims are about. -/

/-- `Slice::copyString`: succeeds only on a string slice. -/
def getString : Option VPack → Option String
  | some (.vstr s) => some s
  | _ => none

/-- `Slice::getBoolean`: succeeds only on a boolean slice. -/
def getBoolean : Option VPack → Option Bool
  | some (.vbool b) => some b
  | _ => none

/-- `Slice::getNumericValue<VariableId>`: a non-negative integer slice. -/
def getNumericNat : Option VPack → Option Nat
  | some (.vnum n) => if n < 0 then none else some n.toNat
  | _ => none

/-- The element loop of `ScatterNode::readClientsFromVelocyPack`: each string
element is appended to the accumulated clients; the first non-string element
clears the whole client list ("clear malformed node") and reports failure. -/
def readClientsLoop (clients : List String) : List VPack → List String × Bool
  | [] => (clients, true)
  | .vstr s :: rest => readClientsLoop (clients ++ [s]) rest
  | _ :: _ => ([], false)

/-- `ScatterNode::readClientsFromVelocyPack`: a missing or non-array `clients`
attribute reports failure leaving `_clients` as it was; otherwise the element
loop runs. The `Bool` is the C++ return value, `false` exactly on the two
logged-error paths. -/
def readClientsFromVelocyPack (clients : List String) (base : VPack) :
    List String × Bool :=
  match base.get "clients" with
  | some (.varr items) => readClientsLoop clients items
  | _ => (clients, false)

/-- `ScatterNode`: the distinct, insertion-ordered client-stream ids. -/
structure ScatterNode where
  clients : List String
deriving DecidableEq

/-- The `ScatterNode(plan, base)` constructor: `_clients` starts empty and is
filled by `readClientsFromVelocyPack`; the return value is ignored, so a
malformed payload still yields a node and the plan load does not fail. -/
def scatterFromVPack (base : VPack) : ScatterNode :=
  { clients := (readClientsFromVelocyPack [] base).1 }

/-- `ScatterNode::writeClientsToVelocyPack`: the `clients` field. -/
def writeClientsToVelocyPack (clients : List String) : String × VPack :=
  ("clients", .varr (clients.map .vstr))

/-- `ScatterNode::toVelocyPackHelper`, node-specific part. -/
def ScatterNode.toVPack (n : ScatterNode) : VPack :=
  .vobj [writeClientsToVelocyPack n.clients]

/-- Modelled from the spec: `Variable` is an opaque value reference
(`variable: ref` in the interchange form); `Variable::toVelocyPack` and
`Variable::varFromVPack` live outside this slice, modelled as an object
holding the id and name. -/
structure Variable where
  id : Nat
  name : String
deriving DecidableEq

/-- Modelled from the spec: `Variable::toVelocyPack`. -/
def Variable.toVPack (v : Variable) : VPack :=
  .vobj [("id", .vnum v.id), ("name", .vstr v.name)]

/-- Modelled from the spec: `Variable::varFromVPack(ast, base, attributeName)`. -/
def varFromVPack (base : VPack) (attributeName : String) : Option Variable :=
  match VPack.get base attributeName with
  | some obj =>
    match obj.get "id", obj.get "name" with
    | some (.vnum i), some (.vstr s) =>
        if i < 0 then none else some { id := i.toNat, name := s }
    | _, _ => none
  | none => none

/-- `DistributeNode`: `ScatterNode`'s client set plus the routing
configuration. The collection handle (`CollectionAccessingNode`) is outside
this slice and not modelled. -/
structure DistributeNode where
  clients : List String
  createKeys : Bool
  allowKeyConversionToObject : Bool
  varRef : Variable
  alternativeVarRef : Variable
  allowSpecifiedKeys : Bool
deriving DecidableEq

/-- The `DistributeNode(plan, base)` constructor: the `ScatterNode` base reads
the clients, `createKeys` / `allowKeyConversionToObject` come from the slice
(`getBoolean` throws on a missing or mistyped attribute, modelled `none`),
`_allowSpecifiedKeys` is fixed to `false`, and the two variable references are
read from `variable` / `alternativeVariable` when both keys are present, else
through the plan's variable table (`varById`, outside this slice) from the
legacy `varId` / `alternativeVarId` attributes. -/
def distributeFromVPack (varById : Nat → Option Variable) (base : VPack) :
    Option DistributeNode := do
  let clients := (readClientsFromVelocyPack [] base).1
  let ck ← getBoolean (base.get "createKeys")
  let akc ← getBoolean (base.get "allowKeyConversionToObject")
  let vars ←
    if base.hasKey "variable" && base.hasKey "alternativeVariable" then do
      let v ← varFromVPack base "variable"
      let av ← varFromVPack base "alternativeVariable"
      pure (v, av)
    else do
      let vid ← getNumericNat (base.get "varId")
      let avid ← getNumericNat (base.get "alternativeVarId")
      let v ← varById vid
      let av ← varById avid
      pure (v, av)
  pure { clients, createKeys := ck, allowKeyConversionToObject := akc,
         varRef := vars.1, alternativeVarRef := vars.2,
         allowSpecifiedKeys := false }

/-- `DistributeNode::toVelocyPackHelper`, node-specific part (collection
information omitted, see `DistributeNode`): clients, the two flags, the two
variable references, and the legacy `varId` / `alternativeVarId` fields. -/
def DistributeNode.toVPack (n : DistributeNode) : VPack :=
  .vobj [writeClientsToVelocyPack n.clients,
         ("createKeys", .vbool n.createKeys),
         ("allowKeyConversionToObject", .vbool n.allowKeyConversionToObject),
         ("variable", n.varRef.toVPack),
         ("alternativeVariable", n.alternativeVarRef.toVPack),
         ("varId", .vnum n.varRef.id),
         ("alternativeVarId", .vnum n.alternativeVarRef.id)]

/-- `RemoteNode`: the remote target and the cursor-initialization
responsibility flag. -/
structure RemoteNode where
  database : String
  server : String
  ownName : String
  queryId : String
  isResponsibleForInitializeCursor : Bool
deriving DecidableEq

/-- The `RemoteNode(plan, base)` constructor: `_vocbase` is taken from the
plan's query (the `vocbaseName` argument, not the slice), the remaining fields
from the slice; `copyString` / `getBoolean` throw on a missing or mistyped
attribute (`none`). -/
def remoteFromVPack (vocbaseName : String) (base : VPack) : Option RemoteNode := do
  let server ← getString (base.get "server")
  let ownName ← getString (base.get "ownName")
  let queryId ← getString (base.get "queryId")
  let iric ← getBoolean (base.get "isResponsibleForInitializeCursor")
  pure { database := vocbaseName, server, ownName, queryId,
         isResponsibleForInitializeCursor := iric }

/-- `RemoteNode::toVelocyPackHelper`, node-specific part. -/
def RemoteNode.toVPack (n : RemoteNode) : VPack :=
  .vobj [("database", .vstr n.database),
         ("server", .vstr n.server),
         ("ownName", .vstr n.ownName),
         ("queryId", .vstr n.queryId),
         ("isResponsibleForInitializeCursor",
          .vbool n.isResponsibleForInitializeCursor)]

/-- One entry of the sort criterion (`SortElement`): the value reference, the
ascending flag, and the optional nested attribute path. -/
structure SortElement where
  var : Variable
  ascending : Bool
  attributePath : List String
deriving DecidableEq

/-- `GatherNode`: the ordered sort criterion and the merge strategy tag. -/
structure GatherNode where
  elements : List SortElement
  sortmode : SortMode
deriving DecidableEq

/-- The `GatherNode(plan, base, elements)` constructor: `_sortmode` is
initialized to `MinElement`; when the criterion is non-empty the `sortmode`
attribute is parsed (with default tag `""` when the attribute is absent or not
a string) and on a parse failure the error is logged and the mode left at its
initial value. Construction always succeeds. -/
def gatherFromVPack (base : VPack) (elements : List SortElement) : GatherNode :=
  { elements,
    sortmode :=
      if elements.isEmpty then .MinElement
      else
        match toSortMode (getStringRef (base.get "sortmode") "") with
        | some m => m
        | none => .MinElement }

/-- `SortElement` serialization inside `GatherNode::toVelocyPackHelper`:
`inVariable`, `ascending`, and `path` only when the attribute path is
non-empty. -/
def SortElement.toVPack (e : SortElement) : VPack :=
  .vobj (("inVariable", e.var.toVPack) :: ("ascending", .vbool e.ascending) ::
    (if e.attributePath.isEmpty then []
     else [("path", .varr (e.attributePath.map .vstr))]))

/-- `GatherNode::toVelocyPackHelper`, node-specific part: the sort mode tag
(`"unset"` when the criterion is empty, else the mode's name) and the
serialized criterion list. -/
def GatherNode.toVPack (g : GatherNode) : VPack :=
  .vobj [("sortmode",
          .vstr (if g.elements.isEmpty then "unset"
                 else sortModeToString g.sortmode)),
         ("elements", .varr (g.elements.map SortElement.toVPack))]

/-- An all-strings array payload, read in order; `none` on any non-string
element. -/
def parseStrings : List VPack → Option (List String)
  | [] => some []
  | .vstr s :: rest => (parseStrings rest).map (fun ps => s :: ps)
  | _ :: _ => none

/-- Modelled from the spec: parsing one entry of the `elements` attribute
(`{inVariable: ref, ascending: bool, path?: [string,...]}`); the planning
layer performs this outside this slice before calling the `GatherNode`
constructor. A missing `path` yields an empty attribute path. -/
def sortElementFromVPack (obj : VPack) : Option SortElement := do
  let v ← varFromVPack obj "inVariable"
  let asc ← getBoolean (obj.get "ascending")
  let path ←
    match obj.get "path" with
    | none => pure []
    | some (.varr items) => parseStrings items
    | some _ => none
  pure { var := v, ascending := asc, attributePath := path }

/-- The element loop of the `elements` parsing, in order. -/
def parseSortElements : List VPack → Option (List SortElement)
  | [] => some []
  | it :: rest => do
    let e ← sortElementFromVPack it
    let es ← parseSortElements rest
    pure (e :: es)

/-- Modelled from the spec: parsing the `elements` attribute into the
`SortElementVector` handed to the `GatherNode` constructor. -/
def sortElementsFromVPack (base : VPack) : Option (List SortElement) :=
  match base.get "elements" with
  | some (.varr items) => parseSortElements items
  | _ => none

/-- The two execution-block kinds `GatherNode::createBlock` can produce. -/
inductive GatherBlockKind where
  | unsorting
  | sorting
deriving DecidableEq

/-- `GatherNode::createBlock`: an `UnsortingGatherBlock` exactly when the sort
criterion is empty, a `SortingGatherBlock` otherwise. -/
def GatherNode.createBlockKind (g : GatherNode) : GatherBlockKind :=
  if g.elements.isEmpty then .unsorting else .sorting

/-! ## Transaction lease registry

`TransactionRegistry.h` declares the interface and documents each operation;
the implementation file is not part of this slice, so the operation bodies
are modelled from the header's doc comments and the spec's state machine. -/

/-- Registry key: (database name, transaction id). -/
abbrev TxKey := String × Nat

/-- Modelled from the spec: one `TransactionRegistry::TransactionInfo` entry —
the open/closed flag, the kill mark `destroy` leaves on an Open entry, the
ttl, the absolute expiry, and the leased handle (the opaque `Methods*`,
modelled as a number). -/
structure TxInfo where
  isOpen : Bool
  killed : Bool
  timeToLive : Rat
  expires : Rat
  handle : Nat
deriving DecidableEq

/-- The registry's map of maps, flattened to an association list keyed by
(database name, transaction id). -/
abbrev RegistryState := List (TxKey × TxInfo)

/-- Map lookup over the association list. -/
def lookupTx (st : RegistryState) (k : TxKey) : Option TxInfo :=
  match st with
  | [] => none
  | (k', info) :: rest => if k' = k then some info else lookupTx rest k

/-- In-place update of the entry (entries) stored under `k`. -/
def updateTx (st : RegistryState) (k : TxKey) (f : TxInfo → TxInfo) :
    RegistryState :=
  match st with
  | [] => []
  | (k1, i1) :: rest =>
    if k1 = k then (k1, f i1) :: updateTx rest k f
    else (k1, i1) :: updateTx rest k f

/-- Modelled from the spec: `insert(id, transaction, ttl)` — in error (`none`;
an exception in the source) when the key is already registered; otherwise the
handle's ownership moves to the registry as a Closed entry expiring at
`now + ttl`. -/
def insertTx (st : RegistryState) (k : TxKey) (handle : Nat) (ttl : Rat)
    (now : Rat) : Option RegistryState :=
  match lookupTx st k with
  | some _ => none
  | none => some ((k, { isOpen := false, killed := false, timeToLive := ttl, expires := now + ttl, handle }) :: st)

/-- The lease-conflict error `open` surfaces. -/
inductive LeaseError where
  | conflict
deriving DecidableEq

/-- Modelled from the spec: `open(vocbase, id)` — fails with a lease conflict
when the entry is absent or already Open, leaving the state unchanged;
otherwise it marks the entry Open and returns the handle to the caller as a
borrow. -/
def openTx (st : RegistryState) (k : TxKey) :
    Except LeaseError Nat × RegistryState :=
  match lookupTx st k with
  | none => (.error .conflict, st)
  | some info =>
    if info.isOpen then (.error .conflict, st)
    else (.ok info.handle,
          updateTx st k (fun i => { i with isOpen := true }))

/-- Modelled from the spec: `close(vocbase, id, ttl)` — fails (`none`) when
the entry is absent or not Open; otherwise the borrow is returned and the
expiry recomputed at `now` from the supplied ttl, or from the stored one when
the caller passes the `-1.0` sentinel (modelled as `none`). -/
def closeTx (st : RegistryState) (k : TxKey) (ttl : Option Rat) (now : Rat) :
    Option RegistryState :=
  match lookupTx st k with
  | none => none
  | some info =>
    if info.isOpen then
      some (updateTx st k (fun i =>
        { i with
          isOpen := false
          timeToLive := ttl.getD i.timeToLive
          expires := now + ttl.getD i.timeToLive }))
    else none

/-- The destroy sweep predicate: keep exactly the entries under other keys. -/
def keyNe (k : TxKey) (e : TxKey × TxInfo) : Bool :=
  decide (e.1 ≠ k)

/-- Modelled from the spec: `destroy(vocbase, id, errorCode)` — on an Open
entry it only sets the kill flag ("set the killed flag in the transaction and
do not more": release deferred to the active borrower, entry and handle
stay); on a Closed entry the handle is released and the entry removed; on an
absent key nothing happens. -/
def destroyTx (st : RegistryState) (k : TxKey) : RegistryState :=
  match lookupTx st k with
  | none => st
  | some info =>
    if info.isOpen then
      updateTx st k (fun i => { i with killed := true })
    else
      st.filter (keyNe k)

/-- Modelled from the spec: `expireTransactions()` run at time `now` — the
sweep keeps exactly the entries that are Open or not yet expired. -/
def expireTransactions (st : RegistryState) (now : Rat) : RegistryState :=
  st.filter (fun e => e.2.isOpen || decide (now < e.2.expires))

/-- `numberRegisteredTransactions()`: the number of registered entries. -/
def numberRegisteredTransactions (st : RegistryState) : Nat :=
  st.length

/-! ## Gather merge strategies

`GatherNode::createBlock` (in this slice) picks the unsorting block for an
empty criterion and the sorting block otherwise; the merge loops themselves
(`UnsortingGatherBlock` / `SortingGatherBlock` in `ClusterBlocks.cpp`) are not
part of this slice and are modelled from the spec: buffer one head row per
client, emit the head that is minimal under the criterion's comparator with
ties resolved by client-stream enumeration order — MinElement scanning all
heads each step, Heap keeping the heads in a priority structure. -/

/-- Modelled from the spec: one sort-relevant value of a row; `none` is the
fixed smallest element standing for missing/null values, and an integer
stands in for the opaque document value. -/
abbrev SortValue := Option Int

/-- The fixed total order on sort values: missing/null sorts first. -/
def valueLe : SortValue → SortValue → Bool
  | none, _ => true
  | some _, none => false
  | some a, some b => decide (a ≤ b)

/-- One value comparison under an ascending flag: a descending criterion
element flips the operands. -/
def flagLe (ascending : Bool) (x y : SortValue) : Bool :=
  if ascending then valueLe x y else valueLe y x

/-- Modelled from the spec: a row, reduced to the values the criterion
extracts — the i-th entry is the value the i-th criterion element's variable
and attribute path yield (missing attributes give `none`). -/
abbrev Row := List SortValue

/-- The value a row offers at the current criterion position: its first
remaining value, a missing position reading as null. -/
def rowHead (r : Row) : SortValue :=
  match r with
  | [] => none
  | v :: _ => v

/-- Modelled from the spec: the configured comparator — lexicographic over
the criterion's (value, ascending flag) pairs; a row shorter than the
criterion reads as missing values. `rowLe flags a b` holds when row `a`
sorts at or before row `b`. -/
def rowLe : List Bool → Row → Row → Bool
  | [], _, _ => true
  | asc :: rest, a, b =>
    if flagLe asc (rowHead a) (rowHead b) then
      if flagLe asc (rowHead b) (rowHead a) then rowLe rest a.tail b.tail
      else true
    else false

/-- One buffered client of the merge: the client-stream index, the buffered
head row, and the rest of that client's run. -/
abbrev MergeEntry (α : Type) := Nat × α × List α

/-- The per-client head buffers built from the input runs: one entry per
non-exhausted client, in client-stream enumeration order, clients numbered
from `k`. -/
def entriesFrom (k : Nat) : List (List α) → List (MergeEntry α)
  | [] => []
  | [] :: rest => entriesFrom (k + 1) rest
  | (x :: xs) :: rest => (k, x, xs) :: entriesFrom (k + 1) rest

/-- Modelled from the spec: one scan of the MinElement strategy — over all
buffered heads keep the entry whose head is minimal under `le`, a tie kept
with the earlier entry (the earlier client). -/
def scanMin (le : α → α → Bool) : List (MergeEntry α) → Option (MergeEntry α)
  | [] => none
  | e :: es =>
    match scanMin le es with
    | none => some e
    | some f => if le e.2.1 f.2.1 then some e else some f

/-- Refill after emitting client `i`'s head: the next row of that client's
run becomes its head, or the client leaves the buffer when its run is
exhausted. -/
def refill : List (MergeEntry α) → Nat → List (MergeEntry α)
  | [], _ => []
  | e :: rest, i =>
    if e.1 = i then
      match e.2.2 with
      | [] => rest
      | y :: ys => (e.1, y, ys) :: rest
    else e :: refill rest i

/-- Rows still buffered: each entry counts its head plus its remaining run. -/
def entriesSize (l : List (MergeEntry α)) : Nat :=
  (l.map (fun e => e.2.2.length + 1)).sum

/-- The MinElement loop on buffered entries, driven by fuel (each step emits
one row, so `entriesSize` fuel suffices). -/
def mergeMinGo (le : α → α → Bool) : Nat → List (MergeEntry α) → List α
  | 0, _ => []
  | fuel + 1, l =>
    match scanMin le l with
    | none => []
    | some (i, x, _) => x :: mergeMinGo le fuel (refill l i)

/-- Modelled from the spec: the MinElement strategy — repeatedly scan the
buffered heads, emit the minimal one, refill that client. -/
def mergeMinE (le : α → α → Bool) (l : List (MergeEntry α)) : List α :=
  mergeMinGo le (entriesSize l) l

/-- Modelled from the spec: the MinElement strategy on the per-client input
runs. -/
def gatherMergeMinElement (le : α → α → Bool) (streams : List (List α)) :
    List α :=
  mergeMinE le (entriesFrom 0 streams)

/-- The priority order on buffered entries: strictly smaller head, or equal
heads and the earlier client — the comparator with ties resolved by
client-stream enumeration order. -/
def entryLe (le : α → α → Bool) (a b : MergeEntry α) : Bool :=
  le a.2.1 b.2.1 && (!(le b.2.1 a.2.1) || decide (a.1 ≤ b.1))

/-- Insertion into the priority structure, kept as a list sorted under
`entryLe`. -/
def pqInsert (le : α → α → Bool) (e : MergeEntry α) :
    List (MergeEntry α) → List (MergeEntry α)
  | [] => [e]
  | f :: q => if entryLe le e f then e :: f :: q else f :: pqInsert le e q

/-- Building the priority structure from the initial head buffers. -/
def pqInit (le : α → α → Bool) (l : List (MergeEntry α)) :
    List (MergeEntry α) :=
  l.foldr (pqInsert le) []

/-- The Heap loop: pop the front of the priority structure, emit its head,
reinsert the client with its next row unless exhausted. -/
def mergeHeapGo (le : α → α → Bool) : Nat → List (MergeEntry α) → List α
  | 0, _ => []
  | _ + 1, [] => []
  | fuel + 1, e :: q =>
    e.2.1 :: mergeHeapGo le fuel
      (match e.2.2 with
       | [] => q
       | y :: ys => pqInsert le (e.1, y, ys) q)

/-- The Heap strategy on an already-built priority structure. -/
def mergeHeapE (le : α → α → Bool) (q : List (MergeEntry α)) : List α :=
  mergeHeapGo le (entriesSize q) q

/-- Modelled from the spec: the Heap strategy on the per-client input runs —
identical comparator and emission contract as MinElement, heads held in a
priority structure. -/
def gatherMergeHeap (le : α → α → Bool) (streams : List (List α)) : List α :=
  mergeHeapE le (pqInit le (entriesFrom 0 streams))


/-- All rows still buffered in a list of merge entries, each entry
contributing its head then its remaining run. -/
def entriesFlat : List (MergeEntry α) → List α
  | [] => []
  | (_, x, xs) :: rest => x :: (xs ++ entriesFlat rest)


/-- Removal of the first occurrence of one entry (proof support for the
permutation bookkeeping of the two merge strategies). -/
def eraseEntry [DecidableEq α] : List (MergeEntry α) → MergeEntry α →
    List (MergeEntry α)
  | [], _ => []
  | e :: rest, f => if e = f then rest else e :: eraseEntry rest f

/-! ## Helper lemmas -/

/-- The client loop maps an all-strings payload to the appended client list
and reports success. -/
theorem readClientsLoop_strings (ss : List String) (clients : List String) :
    readClientsLoop clients (ss.map VPack.vstr) = (clients ++ ss, true) := by
  induction ss generalizing clients with
  | nil => simp [readClientsLoop]
  | cons s rest ih => simp [readClientsLoop, ih]

/-- A payload that is not an all-strings array sends the client loop to the
cleared-and-failed result. -/
theorem readClientsLoop_malformed (items : List VPack) (clients : List String) :
    (∃ ss : List String, items = ss.map VPack.vstr) ∨
      readClientsLoop clients items = ([], false) := by
  induction items generalizing clients with
  | nil => exact .inl ⟨[], rfl⟩
  | cons it rest ih =>
    cases it with
    | vstr s =>
      rcases ih (clients ++ [s]) with ⟨ss, hss⟩ | hbad
      · exact .inl ⟨s :: ss, by simp [hss]⟩
      · exact .inr (by simp [readClientsLoop, hbad])
    | vnull => exact .inr rfl
    | vbool b => exact .inr rfl
    | vnum n => exact .inr rfl
    | varr xs => exact .inr rfl
    | vobj fs => exact .inr rfl

/-- A successful `DistributeNode` deserialization takes its client list from
`readClientsFromVelocyPack` run on an empty list. -/
theorem distributeFromVPack_clients (varById : Nat → Option Variable)
    (base : VPack) (n : DistributeNode)
    (h : distributeFromVPack varById base = some n) :
    n.clients = (readClientsFromVelocyPack [] base).1 := by
  rw [distributeFromVPack] at h
  simp only [bind, Option.bind_eq_some] at h
  obtain ⟨ck, hck, akc, hakc, h⟩ := h
  split at h
  · simp only [Option.bind_eq_some, Option.pure_def, Option.some.injEq] at h
    obtain ⟨v, hv, av, hav, vars, hvars, hn⟩ := h
    subst hn
    rfl
  · simp only [Option.bind_eq_some, Option.pure_def, Option.some.injEq] at h
    obtain ⟨i, hi, j, hj, v, hv, av, hav, vars, hvars, hn⟩ := h
    subst hn
    rfl


/-- Deserializing a serialized variable reference recovers it. -/
theorem varFromVPack_of_get (base : VPack) (attributeName : String)
    (v : Variable) (h : base.get attributeName = some v.toVPack) :
    varFromVPack base attributeName = some v := by
  rw [varFromVPack, h]
  simp [Variable.toVPack, VPack.get, vpackGetField]

/-- `parseStrings` recovers a serialized string list. -/
theorem parseStrings_roundtrip (ps : List String) :
    parseStrings (ps.map VPack.vstr) = some ps := by
  induction ps with
  | nil => rfl
  | cons p rest ih => simp [parseStrings, ih]

/-- One serialized sort-criterion element parses back to itself. -/
theorem sortElement_roundtrip (e : SortElement) :
    sortElementFromVPack e.toVPack = some e := by
  obtain ⟨v, asc, path⟩ := e
  cases path with
  | nil =>
    have hv : varFromVPack
        (SortElement.toVPack ⟨v, asc, []⟩) "inVariable" = some v :=
      varFromVPack_of_get _ _ _ rfl
    rw [sortElementFromVPack]
    simp only [SortElement.toVPack, List.isEmpty_nil, if_true] at hv ⊢
    simp [hv, VPack.get, vpackGetField, getBoolean]
  | cons p ps =>
    have hv : varFromVPack
        (SortElement.toVPack ⟨v, asc, p :: ps⟩) "inVariable" = some v :=
      varFromVPack_of_get _ _ _ rfl
    rw [sortElementFromVPack]
    simp only [SortElement.toVPack, List.isEmpty_cons, if_false,
      Bool.false_eq_true, List.map_cons] at hv ⊢
    simp [hv, VPack.get, vpackGetField, getBoolean, parseStrings,
      parseStrings_roundtrip]

/-- A serialized sort-criterion list parses back to itself, in order. -/
theorem sortElements_roundtrip (es : List SortElement) :
    parseSortElements (es.map SortElement.toVPack) = some es := by
  induction es with
  | nil => rfl
  | cons e rest ih => simp [parseSortElements, sortElement_roundtrip, ih]

/-- `ScatterNode` serialize→deserialize round-trip. -/
theorem scatter_roundtrip (n : ScatterNode) :
    scatterFromVPack n.toVPack = n := by
  cases n with
  | mk clients =>
    simp [scatterFromVPack, ScatterNode.toVPack, writeClientsToVelocyPack,
      readClientsFromVelocyPack, VPack.get, vpackGetField,
      readClientsLoop_strings]

/-- `DistributeNode` serialize→deserialize round-trip (the source fixes
`_allowSpecifiedKeys` to `false`, so only such nodes exist). -/
theorem distribute_roundtrip (n : DistributeNode)
    (hask : n.allowSpecifiedKeys = false) (varById : Nat → Option Variable) :
    distributeFromVPack varById n.toVPack = some n := by
  obtain ⟨clients, ck, akc, v, av, ask⟩ := n
  have hask2 : ask = false := hask
  subst hask2
  have hv : varFromVPack
      (DistributeNode.toVPack ⟨clients, ck, akc, v, av, false⟩) "variable" =
      some v := varFromVPack_of_get _ _ _ rfl
  have hav : varFromVPack
      (DistributeNode.toVPack ⟨clients, ck, akc, v, av, false⟩)
      "alternativeVariable" = some av := varFromVPack_of_get _ _ _ rfl
  rw [distributeFromVPack]
  simp only [DistributeNode.toVPack, writeClientsToVelocyPack] at hv hav ⊢
  simp [hv, hav, VPack.hasKey, readClientsFromVelocyPack, VPack.get,
    vpackGetField, readClientsLoop_strings, getBoolean]

/-- `GatherNode` serialize→deserialize round-trip: the criterion list parses
back identically, a node with a non-empty criterion deserializes to an equal
node, and re-serialization reproduces the payload (in particular the sort
mode tag) even for an empty criterion, where the mode itself defaults. -/
theorem gather_roundtrip (g : GatherNode) :
    sortElementsFromVPack g.toVPack = some g.elements ∧
    (g.elements ≠ [] → gatherFromVPack g.toVPack g.elements = g) ∧
    (gatherFromVPack g.toVPack g.elements).toVPack = g.toVPack := by
  obtain ⟨els, mode⟩ := g
  have h2 : els ≠ [] →
      gatherFromVPack (GatherNode.mk els mode).toVPack els =
        GatherNode.mk els mode := by
    intro hne
    have hmode : toSortMode (getStringRef
        ((GatherNode.mk els mode).toVPack.get "sortmode") "") = some mode := by
      simp [GatherNode.toVPack, VPack.get, vpackGetField, getStringRef, hne]
      cases mode <;> rfl
    simp [gatherFromVPack, hne, hmode]
  refine ⟨?_, h2, ?_⟩
  · simp [sortElementsFromVPack, GatherNode.toVPack, VPack.get, vpackGetField,
      sortElements_roundtrip]
  · by_cases hne : els = []
    · subst hne
      rfl
    · rw [h2 hne]


theorem lookupTx_updateTx (st : RegistryState) (k : TxKey)
    (f : TxInfo → TxInfo) :
    lookupTx (updateTx st k f) k = (lookupTx st k).map f := by
  induction st with
  | nil => rfl
  | cons e rest ih =>
    obtain ⟨k1, i1⟩ := e
    by_cases h : k1 = k
    · subst h
      simp [updateTx, lookupTx]
    · simp [updateTx, lookupTx, h, ih]

theorem keys_updateTx (st : RegistryState) (k : TxKey) (f : TxInfo → TxInfo) :
    (updateTx st k f).map Prod.fst = st.map Prod.fst := by
  induction st with
  | nil => rfl
  | cons e rest ih =>
    obtain ⟨k1, i1⟩ := e
    by_cases h : k1 = k <;> simp [updateTx, h, ih]

theorem lookupTx_eq_none_iff (st : RegistryState) (k : TxKey) :
    lookupTx st k = none ↔ k ∉ st.map Prod.fst := by
  induction st with
  | nil => simp [lookupTx]
  | cons e rest ih =>
    by_cases h : e.1 = k
    · simp [lookupTx, h]
    · simp [lookupTx, h, ih, Ne.symm h]

theorem lookupTx_filter_nodup (st : RegistryState) (k : TxKey) (info : TxInfo)
    (p : TxKey × TxInfo → Bool)
    (hk : (st.map Prod.fst).Nodup) (h : lookupTx st k = some info) :
    lookupTx (st.filter p) k = if p (k, info) then some info else none := by
  induction st with
  | nil => simp [lookupTx] at h
  | cons e rest ih =>
    obtain ⟨k1, i1⟩ := e
    rw [List.map_cons] at hk
    obtain ⟨hnotin, hk2⟩ := List.nodup_cons.mp hk
    by_cases he : k1 = k
    · subst he
      have hi : i1 = info := by simpa [lookupTx] using h
      subst hi
      have hrest : lookupTx rest k1 = none :=
        (lookupTx_eq_none_iff _ _).mpr hnotin
      by_cases hp : p (k1, i1) = true
      · rw [if_pos hp]
        simp [List.filter_cons, hp, lookupTx]
      · rw [if_neg hp]
        have hrf : lookupTx (rest.filter p) k1 = none := by
          rw [lookupTx_eq_none_iff] at hrest ⊢
          intro hmem
          apply hrest
          obtain ⟨e2, he2, heq⟩ := List.mem_map.mp hmem
          exact List.mem_map.mpr ⟨e2, (List.mem_filter.mp he2).1, heq⟩
        simp [List.filter_cons, hp, hrf]
    · have h2 : lookupTx rest k = some info := by simpa [lookupTx, he] using h
      have hr := ih hk2 h2
      by_cases hp : p (k1, i1) = true
      · simp [List.filter_cons, hp, lookupTx, he, hr]
      · simp [List.filter_cons, hp, hr]

theorem lookupTx_filter_keyNe (st : RegistryState) (k : TxKey) :
    lookupTx (st.filter (keyNe k)) k = none := by
  induction st with
  | nil => rfl
  | cons e rest ih =>
    obtain ⟨k1, i1⟩ := e
    rw [List.filter_cons]
    by_cases he : k1 = k
    · rw [if_neg (by simp [keyNe, he])]
      exact ih
    · rw [if_pos (by simp [keyNe, he])]
      simpa [lookupTx, he] using ih

theorem filter_keyNe_length (st : RegistryState) (k : TxKey) (info : TxInfo)
    (hk : (st.map Prod.fst).Nodup) (h : lookupTx st k = some info) :
    (st.filter (keyNe k)).length + 1 = st.length := by
  induction st with
  | nil => simp [lookupTx] at h
  | cons e rest ih =>
    obtain ⟨k1, i1⟩ := e
    rw [List.map_cons] at hk
    obtain ⟨hnotin, hk2⟩ := List.nodup_cons.mp hk
    rw [List.filter_cons]
    by_cases he : k1 = k
    · subst he
      rw [if_neg (by simp [keyNe])]
      have hall : rest.filter (keyNe k1) = rest := by
        apply List.filter_eq_self.mpr
        intro e he2
        have hne : e.1 ≠ k1 := fun hek => hnotin (List.mem_map.mpr ⟨e, he2, hek⟩)
        simp only [keyNe]
        exact decide_eq_true hne
      rw [hall]
      rfl
    · have h2 : lookupTx rest k = some info := by simpa [lookupTx, he] using h
      have hlen := ih hk2 h2
      rw [if_pos (by simp [keyNe, he])]
      simp only [List.length_cons]
      omega

theorem updateTx_updateTx (st : RegistryState) (k : TxKey)
    (f g : TxInfo → TxInfo) :
    updateTx (updateTx st k f) k g = updateTx st k (fun i => g (f i)) := by
  induction st with
  | nil => rfl
  | cons e rest ih =>
    obtain ⟨k1, i1⟩ := e
    by_cases he : k1 = k <;> simp [updateTx, he, ih]


/-! ### Merge-strategy lemmas

The priority order `entryLe` is total and transitive whenever the row
comparator is; the MinElement scan returns the `entryLe`-least buffered
entry; `refill` is one-step bookkeeping on the buffers; the priority list is
a sorted permutation of the buffers. Together these give the step-by-step
equality of the two strategies and the permutation/monotonicity of the
output. -/

theorem entryLe_refl (le : α → α → Bool)
    (htot : ∀ a b, le a b = true ∨ le b a = true) (e : MergeEntry α) :
    entryLe le e e = true := by
  have h : le e.2.1 e.2.1 = true := by
    rcases htot e.2.1 e.2.1 with h | h <;> exact h
  simp [entryLe, h]

theorem entryLe_total (le : α → α → Bool)
    (htot : ∀ a b, le a b = true ∨ le b a = true) (e f : MergeEntry α) :
    entryLe le e f = true ∨ entryLe le f e = true := by
  rcases htot e.2.1 f.2.1 with h | h
  · by_cases h2 : le f.2.1 e.2.1 = true
    · rcases Nat.le_total e.1 f.1 with h3 | h3
      · exact .inl (by simp [entryLe, h, h2, h3])
      · exact .inr (by simp [entryLe, h, h2, h3])
    · exact .inl (by simp [entryLe, h, h2])
  · by_cases h2 : le e.2.1 f.2.1 = true
    · rcases Nat.le_total e.1 f.1 with h3 | h3
      · exact .inl (by simp [entryLe, h, h2, h3])
      · exact .inr (by simp [entryLe, h, h2, h3])
    · exact .inr (by simp [entryLe, h, h2])

theorem entryLe_elim (le : α → α → Bool) (e f : MergeEntry α)
    (h : entryLe le e f = true) :
    le e.2.1 f.2.1 = true ∧ (le f.2.1 e.2.1 = false ∨ e.1 ≤ f.1) := by
  simp only [entryLe, Bool.and_eq_true, Bool.or_eq_true, Bool.not_eq_true',
    decide_eq_true_eq] at h
  exact h

theorem entryLe_intro (le : α → α → Bool) (e f : MergeEntry α)
    (h1 : le e.2.1 f.2.1 = true) (h2 : le f.2.1 e.2.1 = false ∨ e.1 ≤ f.1) :
    entryLe le e f = true := by
  simp only [entryLe, Bool.and_eq_true, Bool.or_eq_true, Bool.not_eq_true',
    decide_eq_true_eq]
  exact ⟨h1, h2⟩

theorem entryLe_trans (le : α → α → Bool)
    (htrans : ∀ a b c, le a b = true → le b c = true → le a c = true)
    (e f g : MergeEntry α)
    (h1 : entryLe le e f = true) (h2 : entryLe le f g = true) :
    entryLe le e g = true := by
  obtain ⟨hef, h1r⟩ := entryLe_elim le e f h1
  obtain ⟨hfg, h2r⟩ := entryLe_elim le f g h2
  refine entryLe_intro le e g (htrans _ _ _ hef hfg) ?_
  by_cases hge : le g.2.1 e.2.1 = true
  · right
    have hgf : le g.2.1 f.2.1 = true := htrans _ _ _ hge hef
    have hfe : le f.2.1 e.2.1 = true := htrans _ _ _ hfg hge
    have hif : e.1 ≤ f.1 := by
      rcases h1r with h | h
      · rw [hfe] at h
        exact absurd h (by simp)
      · exact h
    have hfg2 : f.1 ≤ g.1 := by
      rcases h2r with h | h
      · rw [hgf] at h
        exact absurd h (by simp)
      · exact h
    exact Nat.le_trans hif hfg2
  · exact .inl (by revert hge; cases le g.2.1 e.2.1 <;> simp)

theorem entriesSize_eq_zero (l : List (MergeEntry α)) :
    entriesSize l = 0 ↔ l = [] := by
  cases l with
  | nil => simp [entriesSize]
  | cons e rest => simp [entriesSize]

theorem entriesSize_perm (l1 l2 : List (MergeEntry α)) (h : l1.Perm l2) :
    entriesSize l1 = entriesSize l2 := by
  show (l1.map (fun e => e.2.2.length + 1)).sum =
    (l2.map (fun e => e.2.2.length + 1)).sum
  exact (h.map _).sum_eq

theorem scanMin_eq_none_iff (le : α → α → Bool) (l : List (MergeEntry α)) :
    scanMin le l = none ↔ l = [] := by
  cases l with
  | nil => simp [scanMin]
  | cons e rest =>
    constructor
    · intro h
      exfalso
      rcases h2 : scanMin le rest with _ | f
      · rw [scanMin] at h
        simp only [h2] at h
        exact Option.noConfusion h
      · rw [scanMin] at h
        simp only [h2] at h
        by_cases hle : le e.2.1 f.2.1 = true
        · rw [if_pos hle] at h
          exact Option.noConfusion h
        · rw [if_neg hle] at h
          exact Option.noConfusion h
    · intro h
      exact (List.cons_ne_nil e rest h).elim

theorem scanMin_mem (le : α → α → Bool) (l : List (MergeEntry α))
    (m : MergeEntry α) (h : scanMin le l = some m) : m ∈ l := by
  induction l generalizing m with
  | nil => simp [scanMin] at h
  | cons e rest ih =>
    rcases h2 : scanMin le rest with _ | f
    · have he : scanMin le (e :: rest) = some e := by
        rw [scanMin]
        simp only [h2]
      rw [he] at h
      injection h with h
      exact h ▸ List.mem_cons_self e rest
    · by_cases hle : le e.2.1 f.2.1 = true
      · have he : scanMin le (e :: rest) = some e := by
          rw [scanMin]
          simp only [h2]
          rw [if_pos hle]
        rw [he] at h
        injection h with h
        exact h ▸ List.mem_cons_self e rest
      · have he : scanMin le (e :: rest) = some f := by
          rw [scanMin]
          simp only [h2]
          rw [if_neg hle]
        rw [he] at h
        injection h with h
        subst h
        exact List.mem_cons_of_mem e (ih f h2)

theorem scanMin_min (le : α → α → Bool)
    (htot : ∀ a b, le a b = true ∨ le b a = true)
    (htrans : ∀ a b c, le a b = true → le b c = true → le a c = true)
    (l : List (MergeEntry α)) (hp : l.Pairwise (fun a b => a.1 < b.1))
    (m : MergeEntry α) (h : scanMin le l = some m) :
    ∀ e ∈ l, entryLe le m e = true := by
  induction l generalizing m with
  | nil => simp [scanMin] at h
  | cons e rest ih =>
    obtain ⟨hpe, hprest⟩ := List.pairwise_cons.mp hp
    rcases h2 : scanMin le rest with _ | f
    · have hrest : rest = [] := (scanMin_eq_none_iff le rest).mp h2
      subst hrest
      have he : scanMin le [e] = some e := rfl
      rw [he] at h
      injection h with h
      subst h
      intro x hx
      rcases List.mem_singleton.mp hx with rfl
      exact entryLe_refl le htot x
    · have hf := ih hprest f h2
      by_cases hle : le e.2.1 f.2.1 = true
      · have he : scanMin le (e :: rest) = some e := by
          rw [scanMin]
          simp only [h2]
          rw [if_pos hle]
        rw [he] at h
        injection h with h
        subst h
        intro x hx
        rcases List.mem_cons.mp hx with rfl | hx
        · exact entryLe_refl le htot x
        · have hfx := entryLe_elim le f x (hf x hx)
          exact entryLe_intro le e x (htrans _ _ _ hle hfx.1)
            (.inr (Nat.le_of_lt (hpe x hx)))
      · have he : scanMin le (e :: rest) = some f := by
          rw [scanMin]
          simp only [h2]
          rw [if_neg hle]
        rw [he] at h
        injection h with h
        subst h
        intro x hx
        rcases List.mem_cons.mp hx with rfl | hx
        · rcases htot f.2.1 x.2.1 with hfe | hef
          · exact entryLe_intro le f x hfe
              (.inl (by revert hle; cases le x.2.1 f.2.1 <;> simp))
          · exact absurd hef hle
        · exact hf x hx

theorem pairwise_idx_eq (l : List (MergeEntry α))
    (hp : l.Pairwise (fun a b => a.1 < b.1)) (m e : MergeEntry α)
    (hm : m ∈ l) (he : e ∈ l) (hidx : m.1 = e.1) : m = e := by
  induction l with
  | nil => simp at hm
  | cons a rest ih =>
    obtain ⟨hpa, hprest⟩ := List.pairwise_cons.mp hp
    rcases List.mem_cons.mp hm with hm1 | hm1
    · rcases List.mem_cons.mp he with he1 | he1
      · rw [hm1, he1]
      · subst hm1
        exact absurd hidx (Nat.ne_of_lt (hpa e he1))
    · rcases List.mem_cons.mp he with he1 | he1
      · subst he1
        exact absurd hidx.symm (Nat.ne_of_lt (hpa m hm1))
      · exact ih hprest hm1 he1

theorem pqInsert_perm (le : α → α → Bool) (e : MergeEntry α)
    (q : List (MergeEntry α)) : (pqInsert le e q).Perm (e :: q) := by
  induction q with
  | nil => exact List.Perm.refl _
  | cons f qt ih =>
    rw [pqInsert]
    by_cases h : entryLe le e f = true
    · rw [if_pos h]
    · rw [if_neg h]
      exact (ih.cons f).trans (List.Perm.swap e f qt)

theorem pqInsert_sorted (le : α → α → Bool)
    (htot : ∀ a b, le a b = true ∨ le b a = true)
    (htrans : ∀ a b c, le a b = true → le b c = true → le a c = true)
    (e : MergeEntry α) (q : List (MergeEntry α))
    (hq : q.Pairwise (fun a b => entryLe le a b = true)) :
    (pqInsert le e q).Pairwise (fun a b => entryLe le a b = true) := by
  induction q with
  | nil => exact List.pairwise_singleton _ e
  | cons f qt ih =>
    obtain ⟨hpf, hqt⟩ := List.pairwise_cons.mp hq
    rw [pqInsert]
    by_cases h : entryLe le e f = true
    · rw [if_pos h]
      refine List.pairwise_cons.mpr ⟨?_, hq⟩
      intro x hx
      rcases List.mem_cons.mp hx with rfl | hx
      · exact h
      · exact entryLe_trans le htrans e f x h (hpf x hx)
    · rw [if_neg h]
      refine List.pairwise_cons.mpr ⟨?_, ih hqt⟩
      intro x hx
      have hx2 : x ∈ e :: qt := (pqInsert_perm le e qt).mem_iff.mp hx
      rcases List.mem_cons.mp hx2 with rfl | hx2
      · rcases entryLe_total le htot f x with h2 | h2
        · exact h2
        · exact absurd h2 h
      · exact hpf x hx2

theorem pqInit_perm (le : α → α → Bool) (l : List (MergeEntry α)) :
    (pqInit le l).Perm l := by
  induction l with
  | nil => exact List.Perm.refl _
  | cons e rest ih =>
    exact (pqInsert_perm le e (pqInit le rest)).trans (ih.cons e)

theorem pqInit_sorted (le : α → α → Bool)
    (htot : ∀ a b, le a b = true ∨ le b a = true)
    (htrans : ∀ a b c, le a b = true → le b c = true → le a c = true)
    (l : List (MergeEntry α)) :
    (pqInit le l).Pairwise (fun a b => entryLe le a b = true) := by
  induction l with
  | nil => exact List.Pairwise.nil
  | cons e rest ih => exact pqInsert_sorted le htot htrans e _ ih


theorem refill_size_eq (l : List (MergeEntry α)) (i : Nat) (x : α)
    (xs : List α) (hmem : (i, x, xs) ∈ l) :
    entriesSize (refill l i) + 1 = entriesSize l := by
  induction l with
  | nil => simp at hmem
  | cons a rest ih =>
    obtain ⟨j, z, zs⟩ := a
    rw [refill]
    by_cases hj : j = i
    · rw [if_pos hj]
      cases zs with
      | nil =>
        simp [entriesSize]
        omega
      | cons y ys =>
        simp [entriesSize]
        omega
    · rw [if_neg hj]
      have hmem2 : (i, x, xs) ∈ rest := by
        rcases List.mem_cons.mp hmem with h | h
        · injection h with h1 _
          exact absurd h1.symm hj
        · exact h
      have := ih hmem2
      simp only [entriesSize, List.map_cons, List.sum_cons] at this ⊢
      omega

theorem refill_mem_idx (l : List (MergeEntry α)) (i : Nat)
    (b : MergeEntry α) (hb : b ∈ refill l i) : ∃ b2 ∈ l, b.1 = b2.1 := by
  induction l with
  | nil => simp [refill] at hb
  | cons a rest ih =>
    obtain ⟨j, z, zs⟩ := a
    rw [refill] at hb
    by_cases hj : j = i
    · rw [if_pos hj] at hb
      cases zs with
      | nil => exact ⟨b, List.mem_cons_of_mem _ hb, rfl⟩
      | cons y ys =>
        rcases List.mem_cons.mp hb with hb1 | hb1
        · refine ⟨(j, z, y :: ys), List.mem_cons_self _ _, ?_⟩
          rw [hb1]
        · exact ⟨b, List.mem_cons_of_mem _ hb1, rfl⟩
    · rw [if_neg hj] at hb
      rcases List.mem_cons.mp hb with hb1 | hb1
      · exact ⟨(j, z, zs), List.mem_cons_self _ _, by rw [hb1]⟩
      · obtain ⟨b2, hb2, he⟩ := ih hb1
        exact ⟨b2, List.mem_cons_of_mem _ hb2, he⟩

theorem refill_pairwise (l : List (MergeEntry α)) (i : Nat)
    (hp : l.Pairwise (fun a b => a.1 < b.1)) :
    (refill l i).Pairwise (fun a b => a.1 < b.1) := by
  induction l with
  | nil => exact List.Pairwise.nil
  | cons a rest ih =>
    obtain ⟨hpa, hprest⟩ := List.pairwise_cons.mp hp
    obtain ⟨j, z, zs⟩ := a
    rw [refill]
    by_cases hj : j = i
    · rw [if_pos hj]
      cases zs with
      | nil => exact hprest
      | cons y ys => exact List.pairwise_cons.mpr ⟨fun b hb => hpa b hb, hprest⟩
    · rw [if_neg hj]
      refine List.pairwise_cons.mpr ⟨?_, ih hprest⟩
      intro b hb
      obtain ⟨b2, hb2, he⟩ := refill_mem_idx rest i b hb
      rw [he]
      exact hpa b2 hb2


theorem perm_cons_eraseEntry [DecidableEq α] (a : MergeEntry α)
    (l : List (MergeEntry α)) (h : a ∈ l) :
    l.Perm (a :: eraseEntry l a) := by
  induction l with
  | nil => simp at h
  | cons b rest ih =>
    rw [eraseEntry]
    by_cases hb : b = a
    · subst hb
      rw [if_pos rfl]
    · rw [if_neg hb]
      have h2 : a ∈ rest := by
        rcases List.mem_cons.mp h with h | h
        · exact absurd h.symm hb
        · exact h
      exact ((ih h2).cons b).trans (List.Perm.swap _ _ _)

theorem refill_perm_exhausted [DecidableEq α] (l : List (MergeEntry α))
    (i : Nat) (x : α) (hp : l.Pairwise (fun a b => a.1 < b.1))
    (hmem : (i, x, ([] : List α)) ∈ l) :
    (refill l i).Perm (eraseEntry l (i, x, [])) := by
  induction l with
  | nil => simp at hmem
  | cons a rest ih =>
    obtain ⟨hpa, hprest⟩ := List.pairwise_cons.mp hp
    obtain ⟨j, z, zs⟩ := a
    by_cases hj : j = i
    · subst hj
      have hhead : ((j : Nat), x, ([] : List α)) = ((j : Nat), z, zs) := by
        rcases List.mem_cons.mp hmem with h | h
        · exact h
        · have hlt := hpa _ h
          simp at hlt
      injection hhead with h1 h2
      injection h2 with hz hzs
      subst hz
      subst hzs
      rw [refill, if_pos rfl, eraseEntry, if_pos rfl]
    · have hmem2 : ((i : Nat), x, ([] : List α)) ∈ rest := by
        rcases List.mem_cons.mp hmem with h | h
        · injection h with h1 _
          exact absurd h1.symm hj
        · exact h
      have hne : ¬(((j : Nat), z, zs) = (((i : Nat), x, ([] : List α)) :
          MergeEntry α)) := by
        intro hcontra
        injection hcontra with h1 _
        exact hj h1
      rw [refill, if_neg hj, eraseEntry, if_neg hne]
      exact (ih hprest hmem2).cons _

theorem refill_perm_refit [DecidableEq α] (l : List (MergeEntry α))
    (i : Nat) (x y : α) (ys : List α)
    (hp : l.Pairwise (fun a b => a.1 < b.1)) (hmem : (i, x, y :: ys) ∈ l) :
    (refill l i).Perm ((i, y, ys) :: eraseEntry l (i, x, y :: ys)) := by
  induction l with
  | nil => simp at hmem
  | cons a rest ih =>
    obtain ⟨hpa, hprest⟩ := List.pairwise_cons.mp hp
    obtain ⟨j, z, zs⟩ := a
    by_cases hj : j = i
    · subst hj
      have hhead : ((j : Nat), x, y :: ys) = ((j : Nat), z, zs) := by
        rcases List.mem_cons.mp hmem with h | h
        · exact h
        · have hlt := hpa _ h
          simp at hlt
      injection hhead with h1 h2
      injection h2 with hz hzs
      subst hz
      subst hzs
      rw [refill, if_pos rfl, eraseEntry, if_pos rfl]
    · have hmem2 : ((i : Nat), x, y :: ys) ∈ rest := by
        rcases List.mem_cons.mp hmem with h | h
        · injection h with h1 _
          exact absurd h1.symm hj
        · exact h
      have hne : ¬(((j : Nat), z, zs) = (((i : Nat), x, y :: ys) :
          MergeEntry α)) := by
        intro hcontra
        injection hcontra with h1 _
        exact hj h1
      rw [refill, if_neg hj, eraseEntry, if_neg hne]
      exact ((ih hprest hmem2).cons _).trans (List.Perm.swap _ _ _)

theorem mergeMinE_step (le : α → α → Bool) (l : List (MergeEntry α))
    (i : Nat) (x : α) (xs : List α) (hscan : scanMin le l = some (i, x, xs)) :
    mergeMinE le l = x :: mergeMinE le (refill l i) := by
  have hmem := scanMin_mem le l _ hscan
  have hsz := refill_size_eq l i x xs hmem
  rw [mergeMinE, mergeMinE, ← hsz, mergeMinGo]
  simp only [hscan]

theorem mergeHeapE_cons_nil (le : α → α → Bool) (i : Nat) (x : α)
    (q : List (MergeEntry α)) :
    mergeHeapE le ((i, x, []) :: q) = x :: mergeHeapE le q := by
  rw [mergeHeapE, mergeHeapE]
  have hsz : entriesSize (((i, x, []) : MergeEntry α) :: q) =
      entriesSize q + 1 := by
    simp [entriesSize]
    omega
  rw [hsz, mergeHeapGo]

theorem mergeHeapE_cons_cons (le : α → α → Bool) (i : Nat) (x y : α)
    (ys : List α) (q : List (MergeEntry α)) :
    mergeHeapE le ((i, x, y :: ys) :: q) =
      x :: mergeHeapE le (pqInsert le (i, y, ys) q) := by
  rw [mergeHeapE, mergeHeapE]
  have hsz : entriesSize (((i, x, y :: ys) : MergeEntry α) :: q) =
      entriesSize (pqInsert le (i, y, ys) q) + 1 := by
    have hp := entriesSize_perm _ _ (pqInsert_perm le (i, y, ys) q)
    simp [entriesSize] at hp ⊢
    omega
  rw [hsz, mergeHeapGo]

theorem mergeHeapE_eq_mergeMinE [DecidableEq α] (le : α → α → Bool)
    (htot : ∀ a b, le a b = true ∨ le b a = true)
    (htrans : ∀ a b c, le a b = true → le b c = true → le a c = true)
    (n : Nat) : ∀ (l q : List (MergeEntry α)), entriesSize l ≤ n →
    l.Pairwise (fun a b => a.1 < b.1) → q.Perm l →
    q.Pairwise (fun a b => entryLe le a b = true) →
    mergeHeapE le q = mergeMinE le l := by
  induction n with
  | zero =>
    intro l q hsz hp hperm hq
    have hl : l = [] := (entriesSize_eq_zero l).mp (Nat.le_zero.mp hsz)
    subst hl
    have hq2 : q = [] := hperm.eq_nil
    subst hq2
    rfl
  | succ n ih =>
    intro l q hsz hp hperm hq
    cases q with
    | nil =>
      have hl : l = [] := hperm.symm.eq_nil
      subst hl
      rfl
    | cons e qt =>
      obtain ⟨i, x, xs⟩ := e
      rcases hscan : scanMin le l with _ | m
      · have hl : l = [] := (scanMin_eq_none_iff le l).mp hscan
        subst hl
        exact absurd hperm.eq_nil (List.cons_ne_nil _ _)
      · have hmmem : m ∈ l := scanMin_mem le l _ hscan
        have hemem : ((i, x, xs) : MergeEntry α) ∈ l :=
          hperm.subset (List.mem_cons_self _ _)
        have hmin_m : ∀ e2 ∈ l, entryLe le m e2 = true :=
          scanMin_min le htot htrans l hp m hscan
        have hmin_e : ∀ e2 ∈ l, entryLe le (i, x, xs) e2 = true := by
          intro e2 he2
          have he2q : e2 ∈ ((i, x, xs) : MergeEntry α) :: qt :=
            hperm.mem_iff.mpr he2
          rcases List.mem_cons.mp he2q with he2q | he2q
          · rw [he2q]
            exact entryLe_refl le htot _
          · exact (List.pairwise_cons.mp hq).1 e2 he2q
        have h1 := hmin_m _ hemem
        have h2 := hmin_e _ hmmem
        have hidx : m.1 = i := by
          have e1 := entryLe_elim le m (i, x, xs) h1
          have e2 := entryLe_elim le (i, x, xs) m h2
          rcases e1.2 with hf | hle1
          · rw [e2.1] at hf
            exact absurd hf (by simp)
          · rcases e2.2 with hf | hle2
            · rw [e1.1] at hf
              exact absurd hf (by simp)
            · exact Nat.le_antisymm hle1 hle2
        have hm_eq : m = ((i, x, xs) : MergeEntry α) :=
          pairwise_idx_eq l hp m (i, x, xs) hmmem hemem hidx
        rw [hm_eq] at hscan
        rw [mergeMinE_step le l i x xs hscan]
        have hp2 := refill_pairwise l i hp
        have hsz2 : entriesSize (refill l i) ≤ n := by
          have := refill_size_eq l i x xs hemem
          omega
        have hqt_perm : qt.Perm (eraseEntry l (i, x, xs)) := by
          have h3 : (((i, x, xs) : MergeEntry α) :: qt).Perm
              ((i, x, xs) :: eraseEntry l (i, x, xs)) :=
            hperm.trans (perm_cons_eraseEntry _ l hemem)
          exact (List.perm_cons _).mp h3
        cases xs with
        | nil =>
          rw [mergeHeapE_cons_nil]
          have hl2 : (refill l i).Perm (eraseEntry l (i, x, [])) :=
            refill_perm_exhausted l i x hp hemem
          rw [ih (refill l i) qt hsz2 hp2 (hqt_perm.trans hl2.symm)
            (List.pairwise_cons.mp hq).2]
        | cons y ys =>
          rw [mergeHeapE_cons_cons]
          have hl2 : (refill l i).Perm ((i, y, ys) :: eraseEntry l (i, x, y :: ys)) :=
            refill_perm_refit l i x y ys hp hemem
          have hq2 : (pqInsert le (i, y, ys) qt).Perm (refill l i) :=
            ((pqInsert_perm le (i, y, ys) qt).trans
              (hqt_perm.cons _)).trans hl2.symm
          rw [ih (refill l i) _ hsz2 hp2 hq2
            (pqInsert_sorted le htot htrans _ _ (List.pairwise_cons.mp hq).2)]

theorem eraseEntry_subset [DecidableEq α] (l : List (MergeEntry α))
    (a : MergeEntry α) : eraseEntry l a ⊆ l := by
  induction l with
  | nil => simp [eraseEntry]
  | cons b rest ih =>
    rw [eraseEntry]
    by_cases hb : b = a
    · rw [if_pos hb]
      exact List.subset_cons_of_subset b (List.Subset.refl rest)
    · rw [if_neg hb]
      exact List.cons_subset_cons b ih

theorem entriesFlat_perm (l1 l2 : List (MergeEntry α)) (h : l1.Perm l2) :
    (entriesFlat l1).Perm (entriesFlat l2) := by
  induction h with
  | nil => exact List.Perm.refl _
  | cons e _ ih => exact (ih.append_left e.2.2).cons e.2.1
  | swap e f l =>
    show ((f.2.1 :: f.2.2) ++ ((e.2.1 :: e.2.2) ++ entriesFlat l)).Perm
      ((e.2.1 :: e.2.2) ++ ((f.2.1 :: f.2.2) ++ entriesFlat l))
    exact List.perm_append_comm_assoc _ _ _
  | trans _ _ ih1 ih2 => exact ih1.trans ih2

theorem entriesFlat_mem (l : List (MergeEntry α)) (z : α) :
    z ∈ entriesFlat l ↔ ∃ e ∈ l, z = e.2.1 ∨ z ∈ e.2.2 := by
  induction l with
  | nil => simp [entriesFlat]
  | cons e rest ih =>
    obtain ⟨i, x, xs⟩ := e
    simp only [entriesFlat, List.mem_cons, List.mem_append, ih]
    constructor
    · rintro (heq | hz | ⟨e2, he2, hz⟩)
      · exact ⟨(i, x, xs), .inl rfl, .inl heq⟩
      · exact ⟨(i, x, xs), .inl rfl, .inr hz⟩
      · exact ⟨e2, .inr he2, hz⟩
    · rintro ⟨e2, (heq | he2), hz⟩
      · rw [heq] at hz
        rcases hz with hz | hz
        · exact .inl hz
        · exact .inr (.inl hz)
      · exact .inr (.inr ⟨e2, he2, hz⟩)

theorem entriesFrom_flat (k : Nat) (s : List (List α)) :
    entriesFlat (entriesFrom k s) = s.flatten := by
  induction s generalizing k with
  | nil => rfl
  | cons r rest ih =>
    cases r with
    | nil => simp [entriesFrom, entriesFlat, ih]
    | cons x xs => simp [entriesFrom, entriesFlat, ih]

theorem entriesFrom_idx_ge (k : Nat) (s : List (List α)) :
    ∀ e ∈ entriesFrom k s, k ≤ e.1 := by
  induction s generalizing k with
  | nil => simp [entriesFrom]
  | cons r rest ih =>
    cases r with
    | nil =>
      intro e he
      exact Nat.le_of_succ_le (ih (k + 1) e he)
    | cons x xs =>
      intro e he
      rcases List.mem_cons.mp he with rfl | he
      · exact Nat.le_refl k
      · exact Nat.le_of_succ_le (ih (k + 1) e he)

theorem entriesFrom_pairwise (k : Nat) (s : List (List α)) :
    (entriesFrom k s).Pairwise (fun a b => a.1 < b.1) := by
  induction s generalizing k with
  | nil => exact List.Pairwise.nil
  | cons r rest ih =>
    cases r with
    | nil => exact ih (k + 1)
    | cons x xs =>
      refine List.pairwise_cons.mpr ⟨?_, ih (k + 1)⟩
      intro b hb
      exact Nat.lt_of_succ_le (entriesFrom_idx_ge (k + 1) rest b hb)

theorem entriesFrom_runs (le : α → α → Bool) (k : Nat) (s : List (List α))
    (hs : ∀ r ∈ s, r.Pairwise (fun a b => le a b = true)) :
    ∀ e ∈ entriesFrom k s,
      (e.2.1 :: e.2.2).Pairwise (fun a b => le a b = true) := by
  induction s generalizing k with
  | nil => simp [entriesFrom]
  | cons r rest ih =>
    have hrest : ∀ r2 ∈ rest, r2.Pairwise (fun a b => le a b = true) :=
      fun r2 h2 => hs r2 (List.mem_cons_of_mem _ h2)
    cases r with
    | nil => exact ih (k + 1) hrest
    | cons x xs =>
      intro e he
      rcases List.mem_cons.mp he with rfl | he
      · exact hs (x :: xs) (List.mem_cons_self _ _)
      · exact ih (k + 1) hrest e he

theorem mergeMinE_perm [DecidableEq α] (le : α → α → Bool) (n : Nat) :
    ∀ l : List (MergeEntry α), entriesSize l ≤ n →
    l.Pairwise (fun a b => a.1 < b.1) →
    (mergeMinE le l).Perm (entriesFlat l) := by
  induction n with
  | zero =>
    intro l hsz hp
    have hl : l = [] := (entriesSize_eq_zero l).mp (Nat.le_zero.mp hsz)
    subst hl
    exact List.Perm.refl _
  | succ n ih =>
    intro l hsz hp
    rcases hscan : scanMin le l with _ | m
    · have hl : l = [] := (scanMin_eq_none_iff le l).mp hscan
      subst hl
      exact List.Perm.refl _
    · obtain ⟨i, x, xs⟩ := m
      have hmem : ((i, x, xs) : MergeEntry α) ∈ l := scanMin_mem le l _ hscan
      have hsz2 : entriesSize (refill l i) ≤ n := by
        have := refill_size_eq l i x xs hmem
        omega
      rw [mergeMinE_step le l i x xs hscan]
      have hrec := ih (refill l i) hsz2 (refill_pairwise l i hp)
      cases xs with
      | nil =>
        have hl2 : (refill l i).Perm (eraseEntry l (i, x, [])) :=
          refill_perm_exhausted l i x hp hmem
        have hflat : (entriesFlat l).Perm
            (entriesFlat ((i, x, ([] : List α)) :: eraseEntry l (i, x, []))) :=
          entriesFlat_perm _ _ (perm_cons_eraseEntry _ l hmem)
        refine ((hrec.trans (entriesFlat_perm _ _ hl2)).cons x).trans ?_
        exact hflat.symm
      | cons y ys =>
        have hl2 : (refill l i).Perm
            ((i, y, ys) :: eraseEntry l (i, x, y :: ys)) :=
          refill_perm_refit l i x y ys hp hmem
        have hflat : (entriesFlat l).Perm
            (entriesFlat ((i, x, y :: ys) :: eraseEntry l (i, x, y :: ys))) :=
          entriesFlat_perm _ _ (perm_cons_eraseEntry _ l hmem)
        refine ((hrec.trans (entriesFlat_perm _ _ hl2)).cons x).trans ?_
        exact hflat.symm

theorem mergeMinE_sorted [DecidableEq α] (le : α → α → Bool)
    (htot : ∀ a b, le a b = true ∨ le b a = true)
    (htrans : ∀ a b c, le a b = true → le b c = true → le a c = true)
    (n : Nat) : ∀ l : List (MergeEntry α), entriesSize l ≤ n →
    l.Pairwise (fun a b => a.1 < b.1) →
    (∀ e ∈ l, (e.2.1 :: e.2.2).Pairwise (fun a b => le a b = true)) →
    (mergeMinE le l).Pairwise (fun a b => le a b = true) := by
  induction n with
  | zero =>
    intro l hsz hp hruns
    have hl : l = [] := (entriesSize_eq_zero l).mp (Nat.le_zero.mp hsz)
    subst hl
    exact List.Pairwise.nil
  | succ n ih =>
    intro l hsz hp hruns
    rcases hscan : scanMin le l with _ | m
    · have hl : l = [] := (scanMin_eq_none_iff le l).mp hscan
      subst hl
      exact List.Pairwise.nil
    · obtain ⟨i, x, xs⟩ := m
      have hmem : ((i, x, xs) : MergeEntry α) ∈ l := scanMin_mem le l _ hscan
      have hmin := scanMin_min le htot htrans l hp _ hscan
      have hsz2 : entriesSize (refill l i) ≤ n := by
        have := refill_size_eq l i x xs hmem
        omega
      have hp2 := refill_pairwise l i hp
      rw [mergeMinE_step le l i x xs hscan]
      cases xs with
      | nil =>
        have hsub : ∀ e ∈ refill l i, e ∈ l := by
          intro e he
          have := (refill_perm_exhausted l i x hp hmem).mem_iff.mp he
          exact eraseEntry_subset l _ this
        have hruns2 : ∀ e ∈ refill l i,
            (e.2.1 :: e.2.2).Pairwise (fun a b => le a b = true) :=
          fun e he => hruns e (hsub e he)
        refine List.pairwise_cons.mpr ⟨?_, ih (refill l i) hsz2 hp2 hruns2⟩
        intro z hz
        have hz2 : z ∈ entriesFlat (refill l i) :=
          (mergeMinE_perm le n (refill l i) hsz2 hp2).subset hz
        obtain ⟨e2, he2, hze⟩ := (entriesFlat_mem _ z).mp hz2
        have he2l : e2 ∈ l := hsub e2 he2
        have hhead : le x e2.2.1 = true :=
          (entryLe_elim le (i, x, []) e2 (hmin e2 he2l)).1
        rcases hze with rfl | hze
        · exact hhead
        · exact htrans _ _ _ hhead
            ((List.pairwise_cons.mp (hruns e2 he2l)).1 z hze)
      | cons y ys =>
        have hmemchar : ∀ e ∈ refill l i,
            e = ((i, y, ys) : MergeEntry α) ∨ e ∈ l := by
          intro e he
          have := (refill_perm_refit l i x y ys hp hmem).mem_iff.mp he
          rcases List.mem_cons.mp this with h | h
          · exact .inl h
          · exact .inr (eraseEntry_subset l _ h)
        have hrun0 := hruns (i, x, y :: ys) hmem
        have hx_all : ∀ w ∈ y :: ys, le x w = true :=
          (List.pairwise_cons.mp hrun0).1
        have hruns2 : ∀ e ∈ refill l i,
            (e.2.1 :: e.2.2).Pairwise (fun a b => le a b = true) := by
          intro e he
          rcases hmemchar e he with heq | hel
          · rw [heq]
            exact List.Pairwise.of_cons hrun0
          · exact hruns e hel
        refine List.pairwise_cons.mpr ⟨?_, ih (refill l i) hsz2 hp2 hruns2⟩
        intro z hz
        have hz2 : z ∈ entriesFlat (refill l i) :=
          (mergeMinE_perm le n (refill l i) hsz2 hp2).subset hz
        obtain ⟨e2, he2, hze⟩ := (entriesFlat_mem _ z).mp hz2
        rcases hmemchar e2 he2 with heq | hel
        · rw [heq] at hze
          rcases hze with hz1 | hz1
          · rw [hz1]
            exact hx_all y (List.mem_cons_self _ _)
          · exact hx_all z (List.mem_cons_of_mem _ hz1)
        · have hhead : le x e2.2.1 = true :=
            (entryLe_elim le (i, x, y :: ys) e2 (hmin e2 hel)).1
          rcases hze with rfl | hze
          · exact hhead
          · exact htrans _ _ _ hhead
              ((List.pairwise_cons.mp (hruns e2 hel)).1 z hze)

theorem valueLe_total (a b : SortValue) :
    valueLe a b = true ∨ valueLe b a = true := by
  cases a <;> cases b <;> simp [valueLe] <;> omega

theorem valueLe_trans (a b c : SortValue) (h1 : valueLe a b = true)
    (h2 : valueLe b c = true) : valueLe a c = true := by
  cases a <;> cases b <;> cases c <;> simp_all [valueLe] <;> omega

theorem flagLe_total (asc : Bool) (x y : SortValue) :
    flagLe asc x y = true ∨ flagLe asc y x = true := by
  cases asc <;> simp [flagLe] <;> exact valueLe_total _ _

theorem flagLe_trans (asc : Bool) (x y z : SortValue)
    (h1 : flagLe asc x y = true) (h2 : flagLe asc y z = true) :
    flagLe asc x z = true := by
  cases asc <;> simp [flagLe] at h1 h2 ⊢
  · exact valueLe_trans z y x h2 h1
  · exact valueLe_trans x y z h1 h2


theorem rowLe_total (flags : List Bool) (a b : Row) :
    rowLe flags a b = true ∨ rowLe flags b a = true := by
  induction flags generalizing a b with
  | nil => exact .inl rfl
  | cons asc rest ih =>
    by_cases h1 : flagLe asc (rowHead a) (rowHead b) = true
    · by_cases h2 : flagLe asc (rowHead b) (rowHead a) = true
      · rcases ih a.tail b.tail with h | h
        · exact .inl (by simp [rowLe, h1, h2, h])
        · exact .inr (by simp [rowLe, h1, h2, h])
      · exact .inl (by simp [rowLe, h1, h2])
    · have h2 : flagLe asc (rowHead b) (rowHead a) = true := by
        rcases flagLe_total asc (rowHead a) (rowHead b) with h | h
        · exact absurd h h1
        · exact h
      exact .inr (by simp [rowLe, h1, h2])

theorem rowLe_trans (flags : List Bool) (a b c : Row)
    (h1 : rowLe flags a b = true) (h2 : rowLe flags b c = true) :
    rowLe flags a c = true := by
  induction flags generalizing a b c with
  | nil => rfl
  | cons asc rest ih =>
    by_cases hxy : flagLe asc (rowHead a) (rowHead b) = true
    · by_cases hyz : flagLe asc (rowHead b) (rowHead c) = true
      · have hxz : flagLe asc (rowHead a) (rowHead c) = true :=
          flagLe_trans asc _ _ _ hxy hyz
        by_cases hyx : flagLe asc (rowHead b) (rowHead a) = true
        · by_cases hzy : flagLe asc (rowHead c) (rowHead b) = true
          · have hzx : flagLe asc (rowHead c) (rowHead a) = true :=
              flagLe_trans asc _ _ _ hzy hyx
            rw [rowLe, if_pos hxy, if_pos hyx] at h1
            rw [rowLe, if_pos hyz, if_pos hzy] at h2
            rw [rowLe, if_pos hxz, if_pos hzx]
            exact ih a.tail b.tail c.tail h1 h2
          · have hzx : flagLe asc (rowHead c) (rowHead a) = false := by
              by_contra hc
              have hzx2 : flagLe asc (rowHead c) (rowHead a) = true := by
                revert hc
                cases flagLe asc (rowHead c) (rowHead a) <;> simp
              exact hzy (flagLe_trans asc _ _ _ hzx2 hxy)
            rw [rowLe, if_pos hxz, if_neg (by simp [hzx])]
        · have hzx : flagLe asc (rowHead c) (rowHead a) = false := by
            by_contra hc
            have hzx2 : flagLe asc (rowHead c) (rowHead a) = true := by
              revert hc
              cases flagLe asc (rowHead c) (rowHead a) <;> simp
            exact hyx (flagLe_trans asc _ _ _ hyz hzx2)
          rw [rowLe, if_pos hxz, if_neg (by simp [hzx])]
      · rw [rowLe, if_neg hyz] at h2
        exact absurd h2 (by simp)
    · rw [rowLe, if_neg hxy] at h1
      exact absurd h1 (by simp)

/-! ## Claim theorems -/

/-- C7: For every ScatterNode with exactly one dependency, the estimated cost
equals the upstream cost plus the upstream row count multiplied by the number
of registered client streams. -/
theorem scatter_cost_one_dependency (d : CostEstimate) (nrClients : Nat) :
    scatterEstimateCost [d] nrClients =
      some { cost := d.cost + d.nrItems * nrClients, nrItems := d.nrItems } :=
  rfl

/-- C8: For every DistributeNode, GatherNode, and RemoteNode with exactly one
dependency, the estimated cost equals the upstream cost plus the upstream row
count — one unit of work per row, independent of the client count. -/
theorem per_row_cost_one_dependency (d : CostEstimate) :
    distributeEstimateCost [d] =
        some { cost := d.cost + d.nrItems, nrItems := d.nrItems } ∧
    gatherEstimateCost [d] =
        some { cost := d.cost + d.nrItems, nrItems := d.nrItems } ∧
    remoteEstimateCost [d] = { cost := d.cost + d.nrItems, nrItems := d.nrItems } :=
  ⟨rfl, rfl, rfl⟩

/-- C3 counterexample: a ScatterNode (or DistributeNode, or GatherNode) with
zero dependencies yields no estimate at all — `_dependencies[0]` is an
out-of-bounds access, not a conservative fallback. -/
theorem scatter_zero_dependencies_no_fallback :
    scatterEstimateCost [] 2 = none ∧ distributeEstimateCost [] = none ∧
      gatherEstimateCost [] = none :=
  ⟨rfl, rfl, rfl⟩

/-- C3 amended: only RemoteNode guards its dependency count, returning the
conservative fallback (cost 1.0, one row) when the count is not one;
ScatterNode, DistributeNode and GatherNode read the first dependency
unconditionally — with at least one dependency they compute from it (extras
ignored), with zero dependencies the access is out of bounds and no estimate
is produced. -/
theorem degenerate_topology_estimates (deps : List CostEstimate) (n : Nat)
    (h : deps.length ≠ 1) :
    remoteEstimateCost deps = { cost := 1, nrItems := 1 } ∧
    (deps = [] → scatterEstimateCost deps n = none ∧
      distributeEstimateCost deps = none ∧ gatherEstimateCost deps = none) ∧
    (∀ d rest, deps = d :: rest →
      scatterEstimateCost deps n =
          some { cost := d.cost + d.nrItems * n, nrItems := d.nrItems } ∧
      distributeEstimateCost deps =
          some { cost := d.cost + d.nrItems, nrItems := d.nrItems } ∧
      gatherEstimateCost deps =
          some { cost := d.cost + d.nrItems, nrItems := d.nrItems }) := by
  refine ⟨?_, ?_, ?_⟩
  · cases deps with
    | nil => rfl
    | cons a t =>
      cases t with
      | nil => exact absurd rfl h
      | cons b t2 => rfl
  · rintro rfl
    exact ⟨rfl, rfl, rfl⟩
  · rintro d rest rfl
    exact ⟨rfl, rfl, rfl⟩

/-- C3 amended, witness at a RemoteNode with zero dependencies. -/
theorem degenerate_topology_estimates_witness :
    ([] : List CostEstimate).length ≠ 1 ∧
      remoteEstimateCost [] = { cost := 1, nrItems := 1 } :=
  ⟨by decide, (degenerate_topology_estimates [] 0 (by decide)).1⟩

/-- C10: Deserializing a GatherNode with a non-empty sort criterion and a
sortmode tag that is neither "minelement" nor "heap" (the tag "unset"
included) logs an error and leaves the sort mode at its default MinElement;
construction succeeds rather than aborting. -/
theorem gather_invalid_sortmode_keeps_default (base : VPack)
    (elements : List SortElement) (hne : elements ≠ [])
    (h1 : getStringRef (base.get "sortmode") "" ≠ "minelement")
    (h2 : getStringRef (base.get "sortmode") "" ≠ "heap") :
    gatherFromVPack base elements =
      { elements, sortmode := SortMode.MinElement } := by
  have hmode : toSortMode (getStringRef (base.get "sortmode") "") = none := by
    simp [toSortMode, h1, h2]
  simp [gatherFromVPack, hmode, hne]

/-- C10 witness: the tag `"unset"` with a one-element criterion. -/
theorem gather_invalid_sortmode_keeps_default_witness :
    gatherFromVPack (.vobj [("sortmode", .vstr "unset")])
        [{ var := { id := 1, name := "x" }, ascending := true,
           attributePath := [] }] =
      { elements := [{ var := { id := 1, name := "x" }, ascending := true,
                       attributePath := [] }],
        sortmode := SortMode.MinElement } :=
  gather_invalid_sortmode_keeps_default _ _ (by simp) (by decide) (by decide)

/-- C9: Deserializing a ScatterNode (or the ScatterNode part of a
DistributeNode) whose `clients` payload is not an array of strings is
recoverable: the error is reported (the logged-error return value `false`),
the resulting client set is empty, and a node is still produced; a
well-formed array of strings is read in order into the client set. -/
theorem scatter_clients_payload_recovery (base : VPack) :
    ((¬ ∃ ss : List String,
        base.get "clients" = some (.varr (ss.map VPack.vstr))) →
      scatterFromVPack base = { clients := [] } ∧
      (readClientsFromVelocyPack [] base).2 = false) ∧
    (∀ ss : List String,
      base.get "clients" = some (.varr (ss.map VPack.vstr)) →
      scatterFromVPack base = { clients := ss } ∧
      (readClientsFromVelocyPack [] base).2 = true) ∧
    (∀ (varById : Nat → Option Variable) (n : DistributeNode),
      distributeFromVPack varById base = some n →
      n.clients = (readClientsFromVelocyPack [] base).1) := by
  refine ⟨?_, ?_, fun varById n h => distributeFromVPack_clients varById base n h⟩
  · intro hno
    unfold scatterFromVPack readClientsFromVelocyPack
    cases hc : base.get "clients" with
    | none => simp
    | some v =>
      cases v with
      | varr items =>
        rcases readClientsLoop_malformed items [] with ⟨ss, hss⟩ | hbad
        · exact absurd ⟨ss, by rw [hc, hss]⟩ hno
        · simp [hbad]
      | vnull => simp
      | vbool b => simp
      | vnum nn => simp
      | vstr s => simp
      | vobj fs => simp
  · intro ss hss
    unfold scatterFromVPack readClientsFromVelocyPack
    rw [hss]
    simp [readClientsLoop_strings]

/-- C9 witness: a payload with a non-string element clears the set; a
well-formed payload is read in order. -/
theorem scatter_clients_payload_recovery_witness :
    scatterFromVPack (.vobj [("clients", .varr [.vstr "a", .vnum 1])]) =
        { clients := [] } ∧
    scatterFromVPack (.vobj [("clients", .varr [.vstr "s1", .vstr "s2"])]) =
        { clients := ["s1", "s2"] } :=
  ⟨((scatter_clients_payload_recovery
        (.vobj [("clients", .varr [.vstr "a", .vnum 1])])).1 (by
      rintro ⟨ss, h⟩
      rcases ss with _ | ⟨a, ss2⟩
      · simp [VPack.get, vpackGetField] at h
      · rcases ss2 with _ | ⟨b, ss3⟩ <;> simp [VPack.get, vpackGetField] at h)).1,
   ((scatter_clients_payload_recovery
        (.vobj [("clients", .varr [.vstr "s1", .vstr "s2"])])).2.1
      ["s1", "s2"] (by simp [VPack.get, vpackGetField])).1⟩

/-- C4: For every Scatter, Distribute, Remote and Gather node, serializing
and deserializing yields an observably equivalent node: the client set in
order, the `createKeys` / `allowKeyConversionToObject` flags and variable
references, `server` / `ownName` / `queryId` /
`isResponsibleForInitializeCursor` (the database coming from the enclosing
plan), and the sort mode tag and criterion list (for an empty criterion the
tag `"unset"` re-serializes identically while the stored mode defaults). -/
theorem node_serialization_roundtrip :
    (∀ (n : RemoteNode) (vocbaseName : String),
      remoteFromVPack vocbaseName n.toVPack =
        some { n with database := vocbaseName }) ∧
    (∀ n : ScatterNode, scatterFromVPack n.toVPack = n) ∧
    (∀ (n : DistributeNode) (varById : Nat → Option Variable),
      n.allowSpecifiedKeys = false →
      distributeFromVPack varById n.toVPack = some n) ∧
    (∀ g : GatherNode,
      sortElementsFromVPack g.toVPack = some g.elements ∧
      (g.elements ≠ [] → gatherFromVPack g.toVPack g.elements = g) ∧
      (gatherFromVPack g.toVPack g.elements).toVPack = g.toVPack) :=
  ⟨fun _ _ => rfl, scatter_roundtrip,
   fun n varById h => distribute_roundtrip n h varById, gather_roundtrip⟩

/-- C4 witness: round-trips at concrete Scatter, Distribute and Gather
nodes. -/
theorem node_serialization_roundtrip_witness :
    scatterFromVPack (ScatterNode.mk ["c1", "c2"]).toVPack =
        ScatterNode.mk ["c1", "c2"] ∧
    distributeFromVPack (fun _ => none)
        (DistributeNode.mk ["c1"] true false ⟨1, "v"⟩ ⟨2, "w"⟩ false).toVPack =
      some (DistributeNode.mk ["c1"] true false ⟨1, "v"⟩ ⟨2, "w"⟩ false) ∧
    gatherFromVPack (GatherNode.mk [⟨⟨1, "v"⟩, true, []⟩] .Heap).toVPack
        [⟨⟨1, "v"⟩, true, []⟩] = GatherNode.mk [⟨⟨1, "v"⟩, true, []⟩] .Heap :=
  ⟨node_serialization_roundtrip.2.1 _,
   node_serialization_roundtrip.2.2.1 _ _ rfl,
   (node_serialization_roundtrip.2.2.2 _).2.1 (by simp)⟩

/-- C1: per registry key at most one open borrow exists: open on an absent or
already-Open entry fails with the lease-conflict error leaving the state
unchanged, and after an insert the first open succeeds and returns the
handle while a second open on the now-Open entry fails, again leaving the
state unchanged. -/
theorem open_lease_exclusive (st : RegistryState) (k : TxKey)
    (handle : Nat) (ttl now : Rat) :
    (lookupTx st k = none → openTx st k = (.error .conflict, st)) ∧
    (∀ info, lookupTx st k = some info → info.isOpen = true →
      openTx st k = (.error .conflict, st)) ∧
    (∀ st2, lookupTx st k = none → insertTx st k handle ttl now = some st2 →
      (openTx st2 k).1 = Except.ok handle ∧
      openTx (openTx st2 k).2 k = (.error .conflict, (openTx st2 k).2)) := by
  refine ⟨?_, ?_, ?_⟩
  · intro h
    simp [openTx, h]
  · intro info h hopen
    simp [openTx, h, hopen]
  · intro st2 h hins
    rw [insertTx] at hins
    rw [h] at hins
    injection hins with hins
    subst hins
    constructor
    · simp [openTx, lookupTx]
    · simp [openTx, lookupTx, updateTx]

/-- C1 witness: insert into the empty registry, open once (the handle comes
back), a second open fails with the lease conflict and changes nothing. -/
theorem open_lease_exclusive_witness :
    (openTx [(("db", 1), { isOpen := false, killed := false, timeToLive := (60 : Rat), expires := 0 + 60, handle := 7 })]
      ("db", 1)).1 = Except.ok 7 ∧
    openTx (openTx [(("db", 1), { isOpen := false, killed := false, timeToLive := (60 : Rat), expires := 0 + 60, handle := 7 })]
      ("db", 1)).2 ("db", 1) =
      (Except.error LeaseError.conflict,
       (openTx [(("db", 1), { isOpen := false, killed := false, timeToLive := (60 : Rat), expires := 0 + 60, handle := 7 })]
        ("db", 1)).2) :=
  (open_lease_exclusive [] ("db", 1) 7 60 0).2.2 _ rfl rfl

/-- C5: the expiry sweep keeps exactly the entries that are Open or not yet
expired (so it removes an entry iff it is Closed with its expiry reached and
never touches an Open entry), and after a close with ttl `T` at time `now` a
sweep strictly before `now + T` leaves the entry intact while a sweep at or
after `now + T` removes it. -/
theorem expire_sweep_spec (st : RegistryState) (k : TxKey) (T now : Rat)
    (hk : (st.map Prod.fst).Nodup) :
    (∀ e, e ∈ expireTransactions st now ↔
      e ∈ st ∧ (e.2.isOpen = true ∨ now < e.2.expires)) ∧
    (∀ info st2, lookupTx st k = some info → info.isOpen = true →
      closeTx st k (some T) now = some st2 →
      (∀ t, t < now + T →
        lookupTx (expireTransactions st2 t) k =
          some { info with
                 isOpen := false
                 timeToLive := T
                 expires := now + T }) ∧
      (∀ t, now + T ≤ t → lookupTx (expireTransactions st2 t) k = none)) := by
  constructor
  · intro e
    simp [expireTransactions, List.mem_filter]
  · intro info st2 h hopen hclose
    simp only [closeTx, h] at hclose
    rw [if_pos hopen] at hclose
    injection hclose with hclose
    subst hclose
    have hlk : lookupTx (updateTx st k (fun i =>
        { i with
          isOpen := false
          timeToLive := (some T).getD i.timeToLive
          expires := now + (some T).getD i.timeToLive })) k =
        some { info with
               isOpen := false
               timeToLive := T
               expires := now + T } := by
      rw [lookupTx_updateTx, h]
      rfl
    have hk2 : ((updateTx st k (fun i =>
        { i with
          isOpen := false
          timeToLive := (some T).getD i.timeToLive
          expires := now + (some T).getD i.timeToLive })).map
          Prod.fst).Nodup := by
      rw [keys_updateTx]
      exact hk
    constructor
    · intro t ht
      rw [expireTransactions, lookupTx_filter_nodup _ _ _ _ hk2 hlk]
      simp [ht]
    · intro t ht
      rw [expireTransactions, lookupTx_filter_nodup _ _ _ _ hk2 hlk]
      simp [not_lt.mpr ht]

/-- C5 witness: close an open lease with ttl 60 at time 0; the sweep at time
10 keeps the entry, the sweep at time 70 removes it. -/
theorem expire_sweep_spec_witness :
    (lookupTx (expireTransactions
        [(("db", 1), { isOpen := false, killed := false, timeToLive := (60 : Rat), expires := 0 + 60, handle := 5 })] 10)
      ("db", 1) =
      some { isOpen := false, killed := false, timeToLive := (60 : Rat), expires := 0 + 60, handle := 5 }) ∧
    lookupTx (expireTransactions
        [(("db", 1), { isOpen := false, killed := false, timeToLive := (60 : Rat), expires := 0 + 60, handle := 5 })] 70)
      ("db", 1) = none :=
  ⟨((expire_sweep_spec
      [(("db", 1), { isOpen := true, killed := false, timeToLive := (1 : Rat), expires := 1, handle := 5 })] ("db", 1) 60 0 (by decide)).2
      _ _ rfl rfl rfl).1 10 (by norm_num),
   ((expire_sweep_spec
      [(("db", 1), { isOpen := true, killed := false, timeToLive := (1 : Rat), expires := 1, handle := 5 })] ("db", 1) 60 0 (by decide)).2
      _ _ rfl rfl rfl).2 70 (by norm_num)⟩

/-- C6: destroy on an Open entry only marks the kill flag (the entry stays,
the count is unchanged, the handle is not freed under the borrower); destroy
on a Closed entry removes the entry at once, the registered count dropping by
exactly one; destroy is idempotent. -/
theorem destroy_spec (st : RegistryState) (k : TxKey)
    (hk : (st.map Prod.fst).Nodup) :
    (∀ info, lookupTx st k = some info → info.isOpen = true →
      lookupTx (destroyTx st k) k = some { info with killed := true } ∧
      numberRegisteredTransactions (destroyTx st k) =
        numberRegisteredTransactions st) ∧
    (∀ info, lookupTx st k = some info → info.isOpen = false →
      lookupTx (destroyTx st k) k = none ∧
      numberRegisteredTransactions (destroyTx st k) + 1 =
        numberRegisteredTransactions st) ∧
    destroyTx (destroyTx st k) k = destroyTx st k := by
  refine ⟨?_, ?_, ?_⟩
  · intro info h hopen
    simp only [destroyTx, h]
    rw [if_pos hopen]
    constructor
    · rw [lookupTx_updateTx, h]
      rfl
    · have := congrArg List.length (keys_updateTx st k
        (fun i => { i with killed := true }))
      simpa [numberRegisteredTransactions] using this
  · intro info h hopen
    simp only [destroyTx, h]
    rw [if_neg (by simp [hopen])]
    exact ⟨lookupTx_filter_keyNe st k,
      by simpa [numberRegisteredTransactions] using
        filter_keyNe_length st k info hk h⟩
  · rcases hl : lookupTx st k with _ | info
    · simp [destroyTx, hl]
    · by_cases hopen : info.isOpen = true
      · simp only [destroyTx, hl]
        rw [if_pos hopen]
        simp only [lookupTx_updateTx, hl, Option.map_some']
        rw [if_pos (show ({ info with killed := true } : TxInfo).isOpen = true
          from hopen)]
        rw [updateTx_updateTx]
      · simp only [destroyTx, hl]
        rw [if_neg hopen]
        simp only [lookupTx_filter_keyNe]

/-- C6 witness: a registry with one Open and one Closed entry — destroying
the Open one marks it killed and keeps the count, destroying the Closed one
removes it and drops the count by one, and repeating that destroy changes
nothing. -/
theorem destroy_spec_witness :
    (lookupTx (destroyTx
        [(("db", 1), { isOpen := true, killed := false, timeToLive := (1 : Rat), expires := 1, handle := 5 }),
         (("db", 2), { isOpen := false, killed := false, timeToLive := (2 : Rat), expires := 2, handle := 6 })] ("db", 1))
      ("db", 1) =
      some { isOpen := true, killed := true, timeToLive := (1 : Rat), expires := 1, handle := 5 }) ∧
    numberRegisteredTransactions (destroyTx
        [(("db", 1), { isOpen := true, killed := false, timeToLive := (1 : Rat), expires := 1, handle := 5 }),
         (("db", 2), { isOpen := false, killed := false, timeToLive := (2 : Rat), expires := 2, handle := 6 })] ("db", 1)) =
      numberRegisteredTransactions
        [(("db", 1), { isOpen := true, killed := false, timeToLive := (1 : Rat), expires := 1, handle := 5 }),
         (("db", 2), { isOpen := false, killed := false, timeToLive := (2 : Rat), expires := 2, handle := 6 })] ∧
    (lookupTx (destroyTx
        [(("db", 1), { isOpen := true, killed := false, timeToLive := (1 : Rat), expires := 1, handle := 5 }),
         (("db", 2), { isOpen := false, killed := false, timeToLive := (2 : Rat), expires := 2, handle := 6 })] ("db", 2))
      ("db", 2) = none) ∧
    numberRegisteredTransactions (destroyTx
        [(("db", 1), { isOpen := true, killed := false, timeToLive := (1 : Rat), expires := 1, handle := 5 }),
         (("db", 2), { isOpen := false, killed := false, timeToLive := (2 : Rat), expires := 2, handle := 6 })] ("db", 2)) + 1 =
      numberRegisteredTransactions
        [(("db", 1), { isOpen := true, killed := false, timeToLive := (1 : Rat), expires := 1, handle := 5 }),
         (("db", 2), { isOpen := false, killed := false, timeToLive := (2 : Rat), expires := 2, handle := 6 })] ∧
    destroyTx (destroyTx
        [(("db", 1), { isOpen := true, killed := false, timeToLive := (1 : Rat), expires := 1, handle := 5 }),
         (("db", 2), { isOpen := false, killed := false, timeToLive := (2 : Rat), expires := 2, handle := 6 })] ("db", 2))
      ("db", 2) =
      destroyTx
        [(("db", 1), { isOpen := true, killed := false, timeToLive := (1 : Rat), expires := 1, handle := 5 }),
         (("db", 2), { isOpen := false, killed := false, timeToLive := (2 : Rat), expires := 2, handle := 6 })] ("db", 2) :=
  ⟨((destroy_spec [(("db", 1), { isOpen := true, killed := false, timeToLive := (1 : Rat), expires := 1, handle := 5 }), (("db", 2), { isOpen := false, killed := false, timeToLive := (2 : Rat), expires := 2, handle := 6 })] ("db", 1) (by decide)).1 _ rfl rfl).1,
   ((destroy_spec [(("db", 1), { isOpen := true, killed := false, timeToLive := (1 : Rat), expires := 1, handle := 5 }), (("db", 2), { isOpen := false, killed := false, timeToLive := (2 : Rat), expires := 2, handle := 6 })] ("db", 1) (by decide)).1 _ rfl rfl).2,
   ((destroy_spec [(("db", 1), { isOpen := true, killed := false, timeToLive := (1 : Rat), expires := 1, handle := 5 }), (("db", 2), { isOpen := false, killed := false, timeToLive := (2 : Rat), expires := 2, handle := 6 })] ("db", 2) (by decide)).2.1 _ rfl rfl).1,
   ((destroy_spec [(("db", 1), { isOpen := true, killed := false, timeToLive := (1 : Rat), expires := 1, handle := 5 }), (("db", 2), { isOpen := false, killed := false, timeToLive := (2 : Rat), expires := 2, handle := 6 })] ("db", 2) (by decide)).2.1 _ rfl rfl).2,
   (destroy_spec [(("db", 1), { isOpen := true, killed := false, timeToLive := (1 : Rat), expires := 1, handle := 5 }), (("db", 2), { isOpen := false, killed := false, timeToLive := (2 : Rat), expires := 2, handle := 6 })] ("db", 2) (by decide)).2.2⟩

/-- C2: for every non-empty sort criterion and per-client input runs each
sorted under the criterion's comparator, the MinElement and the Heap gather
strategies emit the identical sequence (ties broken by client-stream
enumeration order by construction of the priority order), the emitted
sequence is monotone under the comparator and is exactly the multiset-union
of all per-client rows; and `createBlock` selects the unsorted strategy
exactly when the sort criterion is empty. -/
theorem gather_merge_strategies_equivalent (criterion : List SortElement)
    (_hcrit : criterion ≠ []) (streams : List (List Row))
    (hsorted : ∀ r ∈ streams, r.Pairwise (fun a b =>
      rowLe (criterion.map SortElement.ascending) a b = true)) :
    gatherMergeHeap (rowLe (criterion.map SortElement.ascending)) streams =
      gatherMergeMinElement (rowLe (criterion.map SortElement.ascending))
        streams ∧
    (gatherMergeMinElement (rowLe (criterion.map SortElement.ascending))
      streams).Pairwise (fun a b =>
        rowLe (criterion.map SortElement.ascending) a b = true) ∧
    (gatherMergeMinElement (rowLe (criterion.map SortElement.ascending))
      streams).Perm streams.flatten ∧
    (∀ g : GatherNode, g.createBlockKind = .unsorting ↔ g.elements = []) := by
  have htot : ∀ a b, rowLe (criterion.map SortElement.ascending) a b = true ∨
      rowLe (criterion.map SortElement.ascending) b a = true :=
    fun a b => rowLe_total _ a b
  have htrans := fun a b c => rowLe_trans (criterion.map SortElement.ascending) a b c
  have hp := entriesFrom_pairwise (α := Row) 0 streams
  refine ⟨?_, ?_, ?_, ?_⟩
  · exact mergeHeapE_eq_mergeMinE _ htot htrans
      (entriesSize (entriesFrom 0 streams)) (entriesFrom 0 streams)
      (pqInit _ (entriesFrom 0 streams)) (Nat.le_refl _) hp
      (pqInit_perm _ _) (pqInit_sorted _ htot htrans _)
  · exact mergeMinE_sorted _ htot htrans
      (entriesSize (entriesFrom 0 streams)) (entriesFrom 0 streams)
      (Nat.le_refl _) hp (entriesFrom_runs _ 0 streams hsorted)
  · have h1 := mergeMinE_perm (rowLe (criterion.map SortElement.ascending))
      (entriesSize (entriesFrom 0 streams)) (entriesFrom 0 streams)
      (Nat.le_refl _) hp
    rw [entriesFrom_flat 0 streams] at h1
    exact h1
  · intro g
    by_cases h : g.elements = [] <;>
      simp [GatherNode.createBlockKind, h]

/-- C2 witness: the spec's scenario — three ascending client runs
`[1,4,7]`, `[2,5]`, `[3,6,8]` merge to `[1,…,8]` identically for both
strategies. -/
theorem gather_merge_strategies_equivalent_witness :
    gatherMergeHeap (rowLe [true])
      [[[some 1], [some 4], [some 7]], [[some 2], [some 5]],
       [[some 3], [some 6], [some 8]]] =
      gatherMergeMinElement (rowLe [true])
        [[[some 1], [some 4], [some 7]], [[some 2], [some 5]],
         [[some 3], [some 6], [some 8]]] ∧
    gatherMergeMinElement (rowLe [true])
      [[[some 1], [some 4], [some 7]], [[some 2], [some 5]],
       [[some 3], [some 6], [some 8]]] =
      [[some 1], [some 2], [some 3], [some 4], [some 5], [some 6],
       [some 7], [some 8]] :=
  ⟨(gather_merge_strategies_equivalent
      [{ var := { id := 0, name := "v" }, ascending := true,
         attributePath := [] }]
      (by simp)
      [[[some 1], [some 4], [some 7]], [[some 2], [some 5]],
       [[some 3], [some 6], [some 8]]]
      (by decide)).1,
   by decide⟩
